import Mathlib

/-!
Verification of the in-memory dependency-graph engine of the todo-dag
repository (`src/app/utils/dag.ts`, with the earlier weighted revision of the
same class found in `src/unnamed/part_005`).

The embedding models JavaScript `Map<number, _>` as an insertion-ordered
association list `List (Nat × _)` and `Set<number>` as an insertion-ordered
duplicate-free `List Nat`.  Methods that would crash in JavaScript on a
missing key (`.get(k)!`) are modelled with a default value (`[]` / `0`);
all claims are stated on well-formed states, where every such lookup hits.
-/

namespace TodoDag

/-- Model of a JavaScript `Map<number, α>`: an insertion-ordered assoc list. -/
abbrev NMap (α : Type) := List (Nat × α)

/-- `Map.get`: returns the value of the first entry with the given key. -/
def mapGet (m : NMap α) (k : Nat) : Option α :=
  (m.find? (fun p => p.1 = k)).map (fun p => p.2)

/-- `Map.has`. -/
def mapHas (m : NMap α) (k : Nat) : Bool :=
  (mapGet m k).isSome

/-- `Map.set`: replaces the value in place when the key is present
(keeping the entry's position, as JavaScript does), appends otherwise. -/
def mapSet (m : NMap α) (k : Nat) (v : α) : NMap α :=
  if mapHas m k then m.map (fun p => if p.1 = k then (k, v) else p)
  else m ++ [(k, v)]

/-- `Map.delete`. -/
def mapDelete (m : NMap α) (k : Nat) : NMap α :=
  m.filter (fun p => p.1 ≠ k)

/-- Model of a JavaScript `Set<number>`; `Set.add` keeps the first-insertion
position of an element that is already present. -/
def setAdd (s : List Nat) (x : Nat) : List Nat :=
  if x ∈ s then s else s ++ [x]

/-- `Set.delete`. -/
def setDelete (s : List Nat) (x : Nat) : List Nat :=
  s.filter (fun y => y ≠ x)

/-! ### Basic lemmas about the map model -/

theorem mapGet_nil (k : Nat) : mapGet ([] : NMap α) k = none := rfl

theorem mapGet_cons (p : Nat × α) (m : NMap α) (k : Nat) :
    mapGet (p :: m) k = if p.1 = k then some p.2 else mapGet m k := by
  by_cases h : p.1 = k <;> simp [mapGet, List.find?_cons, h]

theorem mapHas_iff_mem_keys (m : NMap α) (k : Nat) :
    mapHas m k = true ↔ k ∈ m.map Prod.fst := by
  induction m with
  | nil => simp [mapHas, mapGet]
  | cons p m ih =>
    by_cases h : p.1 = k
    · simp [mapHas, mapGet_cons, h]
    · simpa [mapHas, mapGet_cons, h, Ne.symm h] using ih

theorem mapGet_isSome_of_mem {m : NMap α} {k : Nat}
    (h : k ∈ m.map Prod.fst) : (mapGet m k).isSome := by
  have := (mapHas_iff_mem_keys m k).2 h
  simpa [mapHas] using this

theorem mapGet_eq_none_of_not_mem {m : NMap α} {k : Nat}
    (h : ¬ k ∈ m.map Prod.fst) : mapGet m k = none := by
  by_contra hc
  exact h ((mapHas_iff_mem_keys m k).1 (by simp [mapHas, Option.isSome_iff_ne_none, hc]))

theorem mapGet_mem {m : NMap α} {k : Nat} {v : α}
    (h : mapGet m k = some v) : (k, v) ∈ m := by
  induction m with
  | nil => simp [mapGet] at h
  | cons p m ih =>
    rw [mapGet_cons] at h
    by_cases hp : p.1 = k
    · rw [if_pos hp] at h
      cases p with
      | mk a b =>
        simp only at hp h
        subst hp
        simp only [Option.some.injEq] at h
        subst h
        exact List.mem_cons_self _ _
    · rw [if_neg hp] at h
      exact List.mem_cons_of_mem _ (ih h)

theorem mapGet_map_replace_ne (m : NMap α) (k k' : Nat) (v : α) (h : k' ≠ k) :
    mapGet (m.map (fun p => if p.1 = k then (k, v) else p)) k' = mapGet m k' := by
  induction m with
  | nil => simp
  | cons p m ih =>
    by_cases hp : p.1 = k
    · simp [mapGet_cons, hp, Ne.symm h, ih]
    · simp only [List.map_cons, if_neg hp, mapGet_cons]
      by_cases hp' : p.1 = k' <;> simp [hp', ih]

theorem mapGet_map_replace_self (m : NMap α) (k : Nat) (v : α) (h : mapHas m k) :
    mapGet (m.map (fun p => if p.1 = k then (k, v) else p)) k = some v := by
  induction m with
  | nil => simp [mapHas, mapGet] at h
  | cons p m ih =>
    by_cases hp : p.1 = k
    · simp [mapGet_cons, hp]
    · have hm : mapHas m k := by
        simp only [mapHas, mapGet_cons, if_neg hp] at h
        exact h
      simpa [mapGet_cons, hp] using ih hm

theorem mapGet_append_single (m : NMap α) (k k' : Nat) (v : α) :
    mapGet (m ++ [(k, v)]) k' =
      if mapHas m k' then mapGet m k' else if k = k' then some v else none := by
  induction m with
  | nil => by_cases hk : k = k' <;> simp [mapGet_cons, mapGet, mapHas, hk]
  | cons p m ih =>
    by_cases hp : p.1 = k'
    · simp [mapGet_cons, hp, mapHas]
    · simp only [List.cons_append, mapGet_cons, if_neg hp, ih, mapHas]

theorem keys_mapSet (m : NMap α) (k : Nat) (v : α) :
    (mapSet m k v).map Prod.fst =
      if mapHas m k then m.map Prod.fst else m.map Prod.fst ++ [k] := by
  by_cases h : mapHas m k
  · simp only [mapSet, if_pos h, List.map_map]
    apply List.map_congr_left
    intro p _
    by_cases hp : p.1 = k <;> simp [Function.comp, hp]
  · simp [mapSet, h]

theorem keys_mapSet_nodup {m : NMap α} (k : Nat) (v : α)
    (h : (m.map Prod.fst).Nodup) : ((mapSet m k v).map Prod.fst).Nodup := by
  rw [keys_mapSet]
  by_cases hk : mapHas m k
  · simpa [hk] using h
  · have : ¬ k ∈ m.map Prod.fst := fun hm => hk ((mapHas_iff_mem_keys m k).2 hm)
    simp [hk, List.nodup_append, h, this]

theorem mapGet_mapSet_self (m : NMap α) (k : Nat) (v : α) :
    mapGet (mapSet m k v) k = some v := by
  by_cases h : mapHas m k
  · simp only [mapSet, if_pos h]
    exact mapGet_map_replace_self m k v h
  · simp only [mapSet, if_neg h, mapGet_append_single]
    simp [h]

theorem mapGet_mapSet_ne (m : NMap α) (k k' : Nat) (v : α) (h : k' ≠ k) :
    mapGet (mapSet m k v) k' = mapGet m k' := by
  by_cases hk : mapHas m k
  · simp only [mapSet, if_pos hk]
    exact mapGet_map_replace_ne m k k' v h
  · simp only [mapSet, if_neg hk, mapGet_append_single]
    by_cases h' : mapHas m k'
    · simp [h']
    · have : mapGet m k' = none := by
        by_contra hc
        exact h' (by simp [mapHas, Option.isSome_iff_ne_none, hc])
      simp [h', Ne.symm h, this]

end TodoDag

namespace TodoDag

/-! ### Data model (`src/app/types/todo.ts`, i.e. `src/unnamed/part_003`) -/

/-- The `Todo` class: id, title, dueDate, imageUrl, duration (non-negative
integer hours, per the spec's data model), and the computed `minimumHours`
(earliest start).  -/
structure Todo where
  id : Nat
  title : String
  dueDate : String
  imageUrl : String
  duration : Nat
  minimumHours : Nat
deriving DecidableEq, Repr

/-- The mutable state of the `TodoDAG` singleton (`src/app/utils/dag.ts`):
`idToTodo`, forward adjacency (`Map<number, Set<number>>`), reverse
adjacency, and the safe-target cache. -/
structure DagState where
  todos : NMap Todo
  adj : NMap (List Nat)
  rev : NMap (List Nat)
  cache : NMap (List Nat)
deriving DecidableEq, Repr

/-- The empty graph (freshly constructed singleton). -/
def emptyDag : DagState := ⟨[], [], [], []⟩

/-- `allTodoIds` getter: `Array.from(this.idToTodo.keys())`. -/
def allTodoIds (s : DagState) : List Nat := s.todos.map Prod.fst

/-- `rootNodes` getter: ids whose reverse-adjacency set is empty. -/
def rootNodes (s : DagState) : List Nat :=
  (s.rev.filter (fun p => p.2.isEmpty)).map Prod.fst

/-- `numTodos` getter. -/
def numTodos (s : DagState) : Nat := s.todos.length

/-- Forward neighbors: `this.adj.get(n)`, defaulting to the empty set when
the node is unknown (the source writes `this.adj.get(current) || []` at its
use site in the scheduler). -/
def adjOf (s : DagState) (n : Nat) : List Nat := (mapGet s.adj n).getD []

/-- `getParentIds`: `Array.from(this.rev.get(todoId) || [])`. -/
def revOf (s : DagState) (n : Nat) : List Nat := (mapGet s.rev n).getD []

/-- `hasTodo` (the `console.error` logging is ignored). -/
def hasTodo (s : DagState) (id : Nat) : Bool := mapHas s.todos id

/-- `hasDependency`. -/
def hasDependency (s : DagState) (a b : Nat) : Bool :=
  hasTodo s a && hasTodo s b && decide (b ∈ adjOf s a)

/-- `addNode`: inserts empty adjacency entries if the node is new. -/
def addNode (s : DagState) (n : Nat) : DagState :=
  if mapHas s.adj n then s
  else { s with adj := mapSet s.adj n [], rev := mapSet s.rev n [] }

/-! ### The scheduler, `calculateEarliestStartTimes` (dag.ts lines 341-374)

The source builds three `Map`s (duration, earliestStart, indegree) from
`idToTodo`, seeds a FIFO queue with `rootNodes`, and runs Kahn's algorithm.
The while loop is embedded with explicit fuel; `kahnRun` supplies fuel
strictly greater than the loop measure (queue length plus the sum of the
positive indegree counters), which is proved below to make the loop reach
the empty queue.  The embedded loop additionally returns the dequeue trace
and a flag recording that the queue emptied; both are ghost outputs that do
not feed back into the computed values. -/

/-- The `duration` map: `duration.set(todo.id, todo.duration)` per todo. -/
def calcDur (s : DagState) : NMap Nat :=
  s.todos.foldl (fun m p => mapSet m p.1 p.2.duration) []

/-- The initial `earliestStart` map: every todo starts at 0. -/
def calcEs0 (s : DagState) : NMap Nat :=
  s.todos.foldl (fun m p => mapSet m p.1 0) []

/-- The `indegree` map: `indegree.set(todo.id, this.rev.get(todo.id)!.size)`.
Counters are integers, as in JavaScript, so that decrements below zero are
represented faithfully. -/
def calcIndeg0 (s : DagState) : NMap Int :=
  s.todos.foldl (fun m p => mapSet m p.1 ((revOf s p.1).length : Int)) []

/-- The body of the `for (const neighbor of this.adj.get(current) || [])`
loop: relax the neighbor's earliest start with the current finish time,
decrement its indegree, and enqueue it when the counter reaches zero. -/
def kahnStep (children : List Nat) (finish : Nat)
    (indeg : NMap Int) (es : NMap Nat) (queue : List Nat) :
    NMap Int × NMap Nat × List Nat :=
  children.foldl
    (fun acc neighbor =>
      let newStart := max ((mapGet acc.2.1 neighbor).getD 0) finish
      let es1 := mapSet acc.2.1 neighbor newStart
      let d := (mapGet acc.1 neighbor).getD 0 - 1
      let indeg1 := mapSet acc.1 neighbor d
      let queue1 := if d = 0 then acc.2.2 ++ [neighbor] else acc.2.2
      (indeg1, es1, queue1))
    (indeg, es, queue)

/-- The `while (queue.length > 0)` loop of Kahn's algorithm.  Returns the
final `earliestStart` map, the dequeue trace, and whether the queue emptied
within the given fuel. -/
def kahnLoop (s : DagState) (durM : NMap Nat) :
    Nat → List Nat → NMap Int → NMap Nat → NMap Nat × List Nat × Bool
  | 0, _, _, es => (es, [], false)
  | _ + 1, [], _, es => (es, [], true)
  | fuel + 1, current :: queue, indeg, es =>
    let finish := (mapGet es current).getD 0 + (mapGet durM current).getD 0
    let step := kahnStep (adjOf s current) finish indeg es queue
    let rest := kahnLoop s durM fuel step.2.2 step.1 step.2.1
    (rest.1, current :: rest.2.1, rest.2.2)

/-- The loop measure: queue length plus the sum of the positive parts of the
indegree counters.  Every loop iteration strictly decreases it. -/
def kahnMeasure (queue : List Nat) (indeg : NMap Int) : Nat :=
  queue.length + (indeg.map (fun p => p.2.toNat)).sum

/-- Run Kahn's algorithm from the initial maps with sufficient fuel. -/
def kahnRun (s : DagState) : NMap Nat × List Nat × Bool :=
  kahnLoop s (calcDur s)
    (kahnMeasure (rootNodes s) (calcIndeg0 s) + 1)
    (rootNodes s) (calcIndeg0 s) (calcEs0 s)

/-- `calculateEarliestStartTimes`: runs Kahn's algorithm and stores
`earliestStart.get(todo.id) || 0` into each todo's `minimumHours`. -/
def calculateEarliestStartTimes (s : DagState) : DagState :=
  { s with todos := s.todos.map (fun p => (p.1, { p.2 with minimumHours := (mapGet (kahnRun s).1 p.1).getD 0 })) }

/-! ### Mutating operations (dag.ts) -/

/-- `addTodo`: stores the todo (overwriting any previous object with the
same id), ensures adjacency entries exist, and eagerly recomputes earliest
start times.  Note: it does NOT clear the safe-target cache. -/
def addTodo (s : DagState) (t : Todo) : DagState :=
  calculateEarliestStartTimes (addNode { s with todos := mapSet s.todos t.id t } t.id)

/-- `addDependency` (dag.ts lines 159-171): fails when either endpoint is
unknown; otherwise inserts the edge into both adjacency maps and clears the
safe-target cache.  There is no cycle check and no scheduler recompute. -/
def addDependency (s : DagState) (a b : Nat) : Bool × DagState :=
  if hasTodo s a && hasTodo s b then
    (true,
      { s with
        adj := mapSet s.adj a (setAdd (adjOf s a) b)
        rev := mapSet s.rev b (setAdd (revOf s b) a)
        cache := [] })
  else (false, s)

/-- `deleteDependency`: no-op when the edge is absent; otherwise removes the
edge from both adjacency maps, clears the cache, and recomputes. -/
def deleteDependency (s : DagState) (a b : Nat) : DagState :=
  if hasDependency s a b then
    calculateEarliestStartTimes
      { s with
        adj := mapSet s.adj a (setDelete (adjOf s a) b)
        rev := mapSet s.rev b (setDelete (revOf s b) a)
        cache := [] }
  else s

/-- `deleteNode`: removes the todo, its adjacency entries, and every
occurrence of it in other nodes' edge sets, clears the cache, and
recomputes. -/
def deleteNode (s : DagState) (n : Nat) : DagState :=
  calculateEarliestStartTimes
    { s with
      todos := mapDelete s.todos n
      adj := (mapDelete s.adj n).map (fun p => (p.1, setDelete p.2 n))
      rev := (mapDelete s.rev n).map (fun p => (p.1, setDelete p.2 n))
      cache := [] }

end TodoDag

namespace TodoDag

/-! ### Reachability (specification side)

`Reaches s a b` is the mathematical reflexive-transitive forward
reachability used to state the claims; `RevReaches` walks reverse
adjacency.  Both are proved below to coincide with the source's stack-based
traversals, which also yields decidability. -/

/-- A single forward dependency edge. -/
def Edge (s : DagState) (a b : Nat) : Prop := b ∈ adjOf s a

/-- Forward reachability via zero or more edges. -/
def Reaches (s : DagState) : Nat → Nat → Prop := Relation.ReflTransGen (Edge s)

/-- Reverse-adjacency reachability (the ancestor relation, read from the
descendant: `RevReaches s n a` means `a` is `n` or an ancestor of `n`). -/
def RevReaches (s : DagState) : Nat → Nat → Prop :=
  Relation.ReflTransGen (fun a b => b ∈ revOf s a)

/-- Acyclicity: no edge closes a loop back to its own source. -/
def Acyclic (s : DagState) : Prop :=
  ∀ p ∈ s.adj, ∀ b ∈ p.2, ¬ Reaches s b p.1

/-! ### The stack-based visited-set traversal

`dfsLoop` is the while-loop of `getSafeTargets`'s ancestor computation
(dag.ts lines 238-248), generic in the neighbor function: pop a node,
skip it when already visited, otherwise record it and push its neighbors.
JavaScript pushes the neighbors in order onto the end of the array stack and
pops from the end, hence the `reverse` when prepending to the list stack.
The loop is embedded with fuel; the canonical wrapper `closureFrom` supplies
provably sufficient fuel. -/

def dfsLoop (nbrs : Nat → List Nat) : Nat → List Nat → List Nat → List Nat
  | 0, _, visited => visited
  | _ + 1, [], visited => visited
  | fuel + 1, node :: stack, visited =>
    if node ∈ visited then dfsLoop nbrs fuel stack visited
    else dfsLoop nbrs fuel ((nbrs node).reverse ++ stack) (visited ++ [node])

/-- Escape lemma: from a visited node, any reachable node is either itself
visited or reachable from a pending stack node (given the frontier
invariant of the traversal). -/
theorem reflTransGen_escape {nbrs : Nat → List Nat} {visited stack : List Nat}
    (hfront : ∀ v ∈ visited, ∀ p ∈ nbrs v, p ∈ visited ∨ p ∈ stack)
    {v y : Nat} (hv : v ∈ visited)
    (hr : Relation.ReflTransGen (fun a b => b ∈ nbrs a) v y) :
    y ∈ visited ∨ ∃ x ∈ stack, Relation.ReflTransGen (fun a b => b ∈ nbrs a) x y := by
  induction hr using Relation.ReflTransGen.head_induction_on with
  | refl => exact Or.inl hv
  | head hedge _ ih =>
    rename_i a c _
    rcases hfront a hv c hedge with hc | hc
    · exact ih hc
    · exact Or.inr ⟨c, hc, by assumption⟩

theorem sum_map_one_add (U : List Nat) (f : Nat → Nat) :
    (U.map (fun n => 1 + f n)).sum = U.length + (U.map f).sum := by
  induction U with
  | nil => simp
  | cons u U ih => simp [ih]; omega

/-- Dropping a newly visited node from the measure sum. -/
theorem sum_filter_drop {U : List Nat} (hU : U.Nodup) {node : Nat} (hmem : node ∈ U)
    {visited : List Nat} (hnv : node ∉ visited) (f : Nat → Nat) :
    ((U.filter (fun n => n ∉ visited)).map f).sum
      = ((U.filter (fun n => n ∉ visited ++ [node])).map f).sum + f node := by
  induction U with
  | nil => simp at hmem
  | cons u U ih =>
    rcases List.nodup_cons.1 hU with ⟨hu, hU'⟩
    rcases List.mem_cons.1 hmem with h | h
    · subst h
      have h1 : List.filter (fun n => decide (n ∉ visited)) (node :: U)
          = node :: List.filter (fun n => decide (n ∉ visited)) U :=
        List.filter_cons_of_pos (by simpa using hnv)
      have h2 : List.filter (fun n => decide (n ∉ visited ++ [node])) (node :: U)
          = List.filter (fun n => decide (n ∉ visited ++ [node])) U :=
        List.filter_cons_of_neg (by simp)
      have hfe : U.filter (fun n => decide (n ∉ visited))
          = U.filter (fun n => decide (n ∉ visited ++ [node])) := by
        apply List.filter_congr
        intro n hn
        have : n ≠ node := fun he => hu (he ▸ hn)
        simp [this]
      simp only [h1, h2, List.map_cons, List.sum_cons, hfe]
      omega
    · have hne : u ≠ node := fun he => hu (he ▸ h)
      by_cases hv : u ∈ visited
      · have h1 : List.filter (fun n => decide (n ∉ visited)) (u :: U)
            = List.filter (fun n => decide (n ∉ visited)) U :=
          List.filter_cons_of_neg (by simpa using hv)
        have h2 : List.filter (fun n => decide (n ∉ visited ++ [node])) (u :: U)
            = List.filter (fun n => decide (n ∉ visited ++ [node])) U :=
          List.filter_cons_of_neg (by simp [hv])
        simp only [h1, h2]
        exact ih hU' h
      · have h1 : List.filter (fun n => decide (n ∉ visited)) (u :: U)
            = u :: List.filter (fun n => decide (n ∉ visited)) U :=
          List.filter_cons_of_pos (by simpa using hv)
        have h2 : List.filter (fun n => decide (n ∉ visited ++ [node])) (u :: U)
            = u :: List.filter (fun n => decide (n ∉ visited ++ [node])) U :=
          List.filter_cons_of_pos (by simp [hv, hne])
        simp only [h1, h2, List.map_cons, List.sum_cons]
        rw [ih hU' h]
        omega

/-- Characterization of the traversal: with enough fuel, a closed universe
`U`, and the frontier invariant, the returned visited set is the old visited
set together with everything reachable from the stack. -/
theorem dfsLoop_mem (nbrs : Nat → List Nat) (U : List Nat) (hU : U.Nodup)
    (hclosed : ∀ n ∈ U, ∀ p ∈ nbrs n, p ∈ U) :
    ∀ fuel stack visited,
      (∀ x ∈ stack, x ∈ U) →
      (∀ v ∈ visited, ∀ p ∈ nbrs v, p ∈ visited ∨ p ∈ stack) →
      stack.length +
        ((U.filter (fun n => n ∉ visited)).map (fun n => 1 + (nbrs n).length)).sum < fuel →
      ∀ y, y ∈ dfsLoop nbrs fuel stack visited ↔
        y ∈ visited ∨ ∃ x ∈ stack, Relation.ReflTransGen (fun a b => b ∈ nbrs a) x y := by
  intro fuel
  induction fuel with
  | zero => intro stack visited _ _ hfuel; omega
  | succ fuel ih =>
    intro stack visited hstk hfront hfuel y
    match stack with
    | [] =>
      have hnil : dfsLoop nbrs (fuel + 1) [] visited = visited := rfl
      rw [hnil]
      simp
    | node :: stack =>
      by_cases hv : node ∈ visited
      · rw [dfsLoop, if_pos hv]
        have hfront' : ∀ v ∈ visited, ∀ p ∈ nbrs v, p ∈ visited ∨ p ∈ stack := by
          intro v hvv p hp
          rcases hfront v hvv p hp with h | h
          · exact Or.inl h
          · rcases List.mem_cons.1 h with h | h
            · exact Or.inl (h ▸ hv)
            · exact Or.inr h
        rw [ih stack visited (fun x hx => hstk x (List.mem_cons_of_mem _ hx)) hfront'
          (by simp at hfuel ⊢; omega) y]
        constructor
        · rintro (h | ⟨x, hx, hr⟩)
          · exact Or.inl h
          · exact Or.inr ⟨x, List.mem_cons_of_mem _ hx, hr⟩
        · rintro (h | ⟨x, hx, hr⟩)
          · exact Or.inl h
          · rcases List.mem_cons.1 hx with h | h
            · subst h
              rcases reflTransGen_escape hfront' hv hr with h | h
              · exact Or.inl h
              · exact Or.inr h
            · exact Or.inr ⟨x, h, hr⟩
      · rw [dfsLoop, if_neg hv]
        have hnodeU : node ∈ U := hstk node (List.mem_cons_self _ _)
        have hstk' : ∀ x ∈ (nbrs node).reverse ++ stack, x ∈ U := by
          intro x hx
          rcases List.mem_append.1 hx with h | h
          · exact hclosed node hnodeU x (List.mem_reverse.1 h)
          · exact hstk x (List.mem_cons_of_mem _ h)
        have hfront' : ∀ v ∈ visited ++ [node], ∀ p ∈ nbrs v,
            p ∈ visited ++ [node] ∨ p ∈ (nbrs node).reverse ++ stack := by
          intro v hvv p hp
          rcases List.mem_append.1 hvv with h | h
          · rcases hfront v h p hp with h' | h'
            · exact Or.inl (List.mem_append_left _ h')
            · rcases List.mem_cons.1 h' with h' | h'
              · exact Or.inl (List.mem_append_right _ (by simp [h']))
              · exact Or.inr (List.mem_append_right _ h')
          · have : v = node := by simpa using h
            subst this
            exact Or.inr (List.mem_append_left _ (List.mem_reverse.2 hp))
        have hmeas : ((nbrs node).reverse ++ stack).length +
            ((U.filter (fun n => n ∉ visited ++ [node])).map
              (fun n => 1 + (nbrs n).length)).sum < fuel := by
          have hdrop := sum_filter_drop hU hnodeU hv (fun n => 1 + (nbrs n).length)
          simp only [List.length_append, List.length_reverse, List.length_cons] at hfuel ⊢
          omega
        rw [ih _ _ hstk' hfront' hmeas y]
        constructor
        · rintro (h | ⟨x, hx, hr⟩)
          · rcases List.mem_append.1 h with h | h
            · exact Or.inl h
            · have : y = node := by simpa using h
              exact Or.inr ⟨node, List.mem_cons_self _ _, this ▸ Relation.ReflTransGen.refl⟩
          · rcases List.mem_append.1 hx with h | h
            · exact Or.inr ⟨node, List.mem_cons_self _ _,
                Relation.ReflTransGen.head (List.mem_reverse.1 h) hr⟩
            · exact Or.inr ⟨x, List.mem_cons_of_mem _ h, hr⟩
        · rintro (h | ⟨x, hx, hr⟩)
          · exact Or.inl (List.mem_append_left _ h)
          · rcases List.mem_cons.1 hx with h | h
            · subst h
              rcases hr.cases_head with h | ⟨c, hc, hr'⟩
              · exact Or.inl (List.mem_append_right _ (by simp [h]))
              · exact Or.inr ⟨c, List.mem_append_left _ (List.mem_reverse.2 hc), hr'⟩
            · exact Or.inr ⟨x, List.mem_append_right _ h, hr⟩

end TodoDag

namespace TodoDag

/-! ### Canonical traversals with sufficient fuel -/

/-- Everything the traversal over `entries` starting at `start` can ever
push: the start node plus every value-list element. -/
def closureUniv (entries : NMap (List Nat)) (start : Nat) : List Nat :=
  (start :: (entries.map Prod.snd).flatten).dedup

/-- Fuel strictly exceeding the traversal measure from the initial state. -/
def closureFuel (entries : NMap (List Nat)) (start : Nat) : Nat :=
  2 + (closureUniv entries start).length +
    ((closureUniv entries start).map (fun n => ((mapGet entries n).getD []).length)).sum

/-- The visited set of the stack traversal over the adjacency map `entries`
started at `start`, with canonical (sufficient) fuel. -/
def closureFrom (entries : NMap (List Nat)) (start : Nat) : List Nat :=
  dfsLoop (fun n => (mapGet entries n).getD []) (closureFuel entries start) [start] []

theorem closureUniv_closed (entries : NMap (List Nat)) (start : Nat) :
    ∀ n, ∀ p ∈ (mapGet entries n).getD [], p ∈ closureUniv entries start := by
  intro n p hp
  rcases h : mapGet entries n with _ | l
  · rw [h] at hp
    simp at hp
  · rw [h] at hp
    simp only [Option.getD_some] at hp
    have hmem : (n, l) ∈ entries := mapGet_mem h
    apply List.mem_dedup.2
    exact List.mem_cons_of_mem _
      (List.mem_flatten.2 ⟨l, List.mem_map_of_mem _ hmem, hp⟩)

/-- The traversal computes exactly reflexive-transitive reachability over
the adjacency map. -/
theorem closureFrom_mem (entries : NMap (List Nat)) (start y : Nat) :
    y ∈ closureFrom entries start ↔
      Relation.ReflTransGen (fun a b => b ∈ (mapGet entries a).getD []) start y := by
  have hU : (closureUniv entries start).Nodup := List.nodup_dedup _
  have hstart : start ∈ closureUniv entries start :=
    List.mem_dedup.2 (List.mem_cons_self _ _)
  have hfilter : (closureUniv entries start).filter (fun n => n ∉ ([] : List Nat))
      = closureUniv entries start := by
    apply List.filter_eq_self.2
    intro a _
    simp
  have h := dfsLoop_mem (fun n => (mapGet entries n).getD [])
    (closureUniv entries start) hU
    (fun n _ p hp => closureUniv_closed entries start n p hp)
    (closureFuel entries start) [start] []
    (by
      intro x hx
      have hx' : x = start := by simpa using hx
      exact hx' ▸ hstart)
    (by intro v hv; simp at hv)
    (by
      rw [hfilter]
      simp only [sum_map_one_add, closureFuel, List.length_cons, List.length_nil]
      omega)
    y
  rw [closureFrom, h]
  simp

/-- The ancestor set computed inside `getSafeTargets` (dag.ts lines
236-248): the stack traversal over reverse adjacency from `start`; the
start node itself is always included. -/
def ancestors (s : DagState) (start : Nat) : List Nat := closureFrom s.rev start

theorem ancestors_mem (s : DagState) (start y : Nat) :
    y ∈ ancestors s start ↔ RevReaches s start y :=
  closureFrom_mem s.rev start y

/-- Specification-side helper: the same traversal over forward adjacency,
used to decide `Reaches`. -/
def fwdClosure (s : DagState) (start : Nat) : List Nat := closureFrom s.adj start

theorem fwdClosure_mem (s : DagState) (start y : Nat) :
    y ∈ fwdClosure s start ↔ Reaches s start y :=
  closureFrom_mem s.adj start y

instance (s : DagState) (a b : Nat) : Decidable (Edge s a b) := by
  unfold Edge
  infer_instance

instance (s : DagState) (a b : Nat) : Decidable (Reaches s a b) :=
  decidable_of_iff _ (fwdClosure_mem s a b)

instance (s : DagState) (a b : Nat) : Decidable (RevReaches s a b) :=
  decidable_of_iff _ (ancestors_mem s a b)

instance (s : DagState) : Decidable (Acyclic s) := by
  unfold Acyclic
  infer_instance

/-- `getSafeTargets` (dag.ts lines 231-257): returns the cached list when
present; otherwise computes the ancestor set of `start`, filters it out of
`allTodoIds`, caches the result, and returns it with the updated state. -/
def getSafeTargets (s : DagState) (start : Nat) : List Nat × DagState :=
  match mapGet s.cache start with
  | some v => (v, s)
  | none =>
    let safe := (allTodoIds s).filter (fun id => id ∉ ancestors s start)
    (safe, { s with cache := mapSet s.cache start safe })

end TodoDag

namespace TodoDag

/-! ### The early-exit reachability probe (part_005, `getSafeTargets`'s
inner `isReachable`): pop a node, succeed on hitting the target, otherwise
mark it visited and push its forward neighbors. -/

def reachLoop (nbrs : Nat → List Nat) (target : Nat) :
    Nat → List Nat → List Nat → Bool
  | 0, _, _ => false
  | _ + 1, [], _ => false
  | fuel + 1, node :: stack, visited =>
    if node = target then true
    else if node ∈ visited then reachLoop nbrs target fuel stack visited
    else reachLoop nbrs target fuel ((nbrs node).reverse ++ stack) (visited ++ [node])

theorem reachLoop_spec (nbrs : Nat → List Nat) (target : Nat)
    (U : List Nat) (hU : U.Nodup)
    (hclosed : ∀ n ∈ U, ∀ p ∈ nbrs n, p ∈ U) :
    ∀ fuel stack visited,
      (∀ x ∈ stack, x ∈ U) →
      (∀ v ∈ visited, ∀ p ∈ nbrs v, p ∈ visited ∨ p ∈ stack) →
      target ∉ visited →
      stack.length +
        ((U.filter (fun n => n ∉ visited)).map (fun n => 1 + (nbrs n).length)).sum < fuel →
      (reachLoop nbrs target fuel stack visited = true ↔
        ∃ x ∈ stack, Relation.ReflTransGen (fun a b => b ∈ nbrs a) x target) := by
  intro fuel
  induction fuel with
  | zero => intro stack visited _ _ _ hfuel; omega
  | succ fuel ih =>
    intro stack visited hstk hfront htv hfuel
    match stack with
    | [] =>
      have hnil : reachLoop nbrs target (fuel + 1) [] visited = false := rfl
      rw [hnil]
      simp
    | node :: stack =>
      by_cases ht : node = target
      · rw [reachLoop, if_pos ht]
        simp only [true_iff]
        exact ⟨node, List.mem_cons_self _ _, ht ▸ Relation.ReflTransGen.refl⟩
      · by_cases hv : node ∈ visited
        · rw [reachLoop, if_neg ht, if_pos hv]
          have hfront' : ∀ v ∈ visited, ∀ p ∈ nbrs v, p ∈ visited ∨ p ∈ stack := by
            intro v hvv p hp
            rcases hfront v hvv p hp with h | h
            · exact Or.inl h
            · rcases List.mem_cons.1 h with h | h
              · exact Or.inl (h ▸ hv)
              · exact Or.inr h
          rw [ih stack visited (fun x hx => hstk x (List.mem_cons_of_mem _ hx)) hfront'
            htv (by simp at hfuel ⊢; omega)]
          constructor
          · rintro ⟨x, hx, hr⟩
            exact ⟨x, List.mem_cons_of_mem _ hx, hr⟩
          · rintro ⟨x, hx, hr⟩
            rcases List.mem_cons.1 hx with h | h
            · subst h
              rcases reflTransGen_escape hfront' hv hr with h | h
              · exact absurd h htv
              · exact h
            · exact ⟨x, h, hr⟩
        · rw [reachLoop, if_neg ht, if_neg hv]
          have hnodeU : node ∈ U := hstk node (List.mem_cons_self _ _)
          have hstk' : ∀ x ∈ (nbrs node).reverse ++ stack, x ∈ U := by
            intro x hx
            rcases List.mem_append.1 hx with h | h
            · exact hclosed node hnodeU x (List.mem_reverse.1 h)
            · exact hstk x (List.mem_cons_of_mem _ h)
          have hfront' : ∀ v ∈ visited ++ [node], ∀ p ∈ nbrs v,
              p ∈ visited ++ [node] ∨ p ∈ (nbrs node).reverse ++ stack := by
            intro v hvv p hp
            rcases List.mem_append.1 hvv with h | h
            · rcases hfront v h p hp with h' | h'
              · exact Or.inl (List.mem_append_left _ h')
              · rcases List.mem_cons.1 h' with h' | h'
                · exact Or.inl (List.mem_append_right _ (by simp [h']))
                · exact Or.inr (List.mem_append_right _ h')
            · have : v = node := by simpa using h
              subst this
              exact Or.inr (List.mem_append_left _ (List.mem_reverse.2 hp))
          have htv' : target ∉ visited ++ [node] := by
            intro h
            rcases List.mem_append.1 h with h | h
            · exact htv h
            · have : target = node := by simpa using h
              exact ht this.symm
          have hmeas : ((nbrs node).reverse ++ stack).length +
              ((U.filter (fun n => n ∉ visited ++ [node])).map
                (fun n => 1 + (nbrs n).length)).sum < fuel := by
            have hdrop := sum_filter_drop hU hnodeU hv (fun n => 1 + (nbrs n).length)
            simp only [List.length_append, List.length_reverse, List.length_cons] at hfuel ⊢
            omega
          rw [ih _ _ hstk' hfront' htv' hmeas]
          constructor
          · rintro ⟨x, hx, hr⟩
            rcases List.mem_append.1 hx with h | h
            · exact ⟨node, List.mem_cons_self _ _,
                Relation.ReflTransGen.head (List.mem_reverse.1 h) hr⟩
            · exact ⟨x, List.mem_cons_of_mem _ h, hr⟩
          · rintro ⟨x, hx, hr⟩
            rcases List.mem_cons.1 hx with h | h
            · subst h
              rcases hr.cases_head with h | ⟨c, hc, hr'⟩
              · exact absurd h ht
              · exact ⟨c, List.mem_append_left _ (List.mem_reverse.2 hc), hr'⟩
            · exact ⟨x, List.mem_append_right _ h, hr⟩

end TodoDag

namespace TodoDag

/-! ### The critical-path finder (dag.ts lines 288-334)

`findMaxPath` recurses over forward adjacency.  In dag.ts `adj` stores
plain `Set<number>`s and the source iterates `neighbors.entries()`; on a
JavaScript `Set`, `entries()` yields `[value, value]` pairs, so the
destructured `edgeWeight` is the neighbor's id itself.  The `-Infinity`
initial maximum is modelled with an `Option` accumulator (any first result
replaces it), and the strict `>` keeps the first maximum on ties, as in the
source.  The source's memoization caches a pure function and is elided;
fuel bounds the recursion depth and `getCriticalPath` supplies fuel
exceeding the longest path of an acyclic graph. -/

/-- The accumulator of the `for (const [neighbor, edgeWeight] of
neighbors.entries())` loop: a candidate `(totalWeight, path)` replaces the
current best when its total is strictly larger (`-Infinity` start modelled
by `none`, which any first candidate replaces; ties keep the first
maximum, as the source's strict `>` does). -/
def cpFold (acc : Option (Nat × List Nat)) (r : Nat × Nat × List Nat) :
    Option (Nat × List Nat) :=
  match acc with
  | none => some (r.1 + r.2.1, r.2.2)
  | some b => if r.1 + r.2.1 > b.1 then some (r.1 + r.2.1, r.2.2) else some b

def findMaxPath (s : DagState) : Nat → Nat → Nat × List Nat
  | 0, node => (0, [node])
  | fuel + 1, node =>
    let neighbors := adjOf s node
    if neighbors.isEmpty then (0, [node])
    else
      let results := neighbors.map (fun nb => (nb, findMaxPath s fuel nb))
      match results.foldl cpFold none with
      | some b => (b.1, node :: b.2)
      | none => (0, [node])

/-- `getCriticalPath`: empty when the root is unknown, otherwise the path
component of `findMaxPath(root)`. -/
def getCriticalPath (s : DagState) (root : Nat) : List Nat :=
  if mapHas s.todos root then (findMaxPath s (numTodos s + 1) root).2 else []

end TodoDag

namespace TodoDag.W

open TodoDag

/-! ### The earlier weighted revision of the class (`src/unnamed/part_005`)

Identical structure, except that forward adjacency is
`Map<number, Map<number, number>>`: each edge carries the source todo's
duration (captured at insertion time) as its weight, and `getSafeTargets`
is implemented as a per-candidate forward-reachability probe instead of an
ancestor-set walk. -/

structure WDagState where
  todos : NMap Todo
  adj : NMap (NMap Nat)
  rev : NMap (List Nat)
  cache : NMap (List Nat)
deriving DecidableEq, Repr

/-- `this.adj.get(n)`, defaulting to empty. -/
def adjEntriesOf (s : WDagState) (n : Nat) : NMap Nat := (mapGet s.adj n).getD []

/-- `this.adj.get(n)?.keys() ?? []`. -/
def adjKeysOf (s : WDagState) (n : Nat) : List Nat := (adjEntriesOf s n).map Prod.fst

/-- One forward edge of the weighted graph. -/
def WEdge (s : WDagState) (a b : Nat) : Prop := b ∈ adjKeysOf s a

/-- Forward reachability in the weighted graph. -/
def WReaches (s : WDagState) : Nat → Nat → Prop := Relation.ReflTransGen (WEdge s)

/-- part_005 `addDependency` (lines 179-192): checks both endpoints exist,
then stores the edge with the source's duration as its weight and clears
the cache.  As in dag.ts there is neither a cycle check nor a recompute.
The `getD` default models the non-null assertion `getTodoWithId(from)!`,
which cannot fail under the preceding existence check. -/
def addDependency (s : WDagState) (a b : Nat) : Bool × WDagState :=
  if mapHas s.todos a && mapHas s.todos b then
    let src := (mapGet s.todos a).getD ⟨0, "", "", "", 0, 0⟩
    (true,
      { s with
        adj := mapSet s.adj a (mapSet (adjEntriesOf s a) b src.duration)
        rev := mapSet s.rev b (setAdd ((mapGet s.rev b).getD []) a)
        cache := [] })
  else (false, s)

/-- Everything the probe can push: the start node plus every adjacency
value key. -/
def probeUniv (s : WDagState) (start : Nat) : List Nat :=
  (start :: (s.adj.map (fun p => p.2.map Prod.fst)).flatten).dedup

/-- Fuel strictly exceeding the probe measure from the initial state. -/
def probeFuel (s : WDagState) (start : Nat) : Nat :=
  2 + (probeUniv s start).length +
    ((probeUniv s start).map (fun n => (adjKeysOf s n).length)).sum

/-- part_005's inner `isReachable(start, target)`: DFS over forward
adjacency with early exit on the target. -/
def isReachable (s : WDagState) (start target : Nat) : Bool :=
  reachLoop (adjKeysOf s) target (probeFuel s start) [start] []

theorem probeUniv_closed (s : WDagState) (start : Nat) :
    ∀ n, ∀ p ∈ adjKeysOf s n, p ∈ probeUniv s start := by
  intro n p hp
  rcases h : mapGet s.adj n with _ | l
  · rw [adjKeysOf, adjEntriesOf, h] at hp
    simp at hp
  · rw [adjKeysOf, adjEntriesOf, h] at hp
    simp only [Option.getD_some] at hp
    have hmem : (n, l) ∈ s.adj := mapGet_mem h
    apply List.mem_dedup.2
    apply List.mem_cons_of_mem
    exact List.mem_flatten.2 ⟨l.map Prod.fst,
      List.mem_map.2 ⟨(n, l), hmem, rfl⟩, hp⟩

theorem isReachable_iff (s : WDagState) (start target : Nat) :
    isReachable s start target = true ↔ WReaches s start target := by
  have hU : (probeUniv s start).Nodup := List.nodup_dedup _
  have hstart : start ∈ probeUniv s start :=
    List.mem_dedup.2 (List.mem_cons_self _ _)
  have hfilter : (probeUniv s start).filter (fun n => n ∉ ([] : List Nat))
      = probeUniv s start := by
    apply List.filter_eq_self.2
    intro a _
    simp
  have h := reachLoop_spec (adjKeysOf s) target (probeUniv s start) hU
    (fun n _ p hp => probeUniv_closed s start n p hp)
    (probeFuel s start) [start] []
    (by
      intro x hx
      have hx' : x = start := by simpa using hx
      exact hx' ▸ hstart)
    (by intro v hv; simp at hv)
    (by simp)
    (by
      rw [hfilter]
      simp only [sum_map_one_add, probeFuel, List.length_cons, List.length_nil]
      omega)
  rw [isReachable, h]
  simp only [List.mem_singleton, exists_eq_left]
  rfl

/-- part_005's `getSafeTargets` (lines 253-297): cached when available,
otherwise every adjacency key other than `start` from which `start` is not
forward-reachable. -/
def getSafeTargets (s : WDagState) (start : Nat) : List Nat × WDagState :=
  match mapGet s.cache start with
  | some v => (v, s)
  | none =>
    let safe := (s.adj.map Prod.fst).filter
      (fun c => (c != start) && !(isReachable s c start))
    (safe, { s with cache := mapSet s.cache start safe })

/-- part_005's `findMaxPath`: identical to the dag.ts one except that
`neighbors.entries()` now iterates a genuine `Map`, so the destructured
`edgeWeight` is the stored weight (the source's duration at insertion). -/
def findMaxPath (s : WDagState) : Nat → Nat → Nat × List Nat
  | 0, node => (0, [node])
  | fuel + 1, node =>
    let neighbors := adjEntriesOf s node
    if neighbors.isEmpty then (0, [node])
    else
      let results := neighbors.map (fun e => (e.2, findMaxPath s fuel e.1))
      match results.foldl cpFold none with
      | some b => (b.1, node :: b.2)
      | none => (0, [node])

/-- part_005's `getCriticalPath`. -/
def getCriticalPath (s : WDagState) (root : Nat) : List Nat :=
  if mapHas s.todos root then (findMaxPath s (s.todos.length + 1) root).2 else []

end TodoDag.W

namespace TodoDag

/-! ### Well-formedness

The invariants that every state reachable through the public API satisfies
(the spec lists them under its data model): duplicate-free keys, the three
maps keyed by the same ids in the same insertion order, duplicate-free
neighbor sets whose members are stored todos, and mutually mirrored
forward/reverse adjacency.  All quantifiers are bounded, so `WF` is
decidable and can be checked on concrete states. -/

def WF (s : DagState) : Prop :=
  (s.todos.map Prod.fst).Nodup ∧
  s.adj.map Prod.fst = s.todos.map Prod.fst ∧
  s.rev.map Prod.fst = s.todos.map Prod.fst ∧
  (∀ p ∈ s.adj, p.2.Nodup ∧ ∀ b ∈ p.2, b ∈ s.todos.map Prod.fst) ∧
  (∀ p ∈ s.rev, p.2.Nodup ∧ ∀ a ∈ p.2, a ∈ s.todos.map Prod.fst) ∧
  (∀ p ∈ s.adj, ∀ b ∈ p.2, p.1 ∈ revOf s b) ∧
  (∀ p ∈ s.rev, ∀ a ∈ p.2, p.1 ∈ adjOf s a)

instance (s : DagState) : Decidable (WF s) := by
  unfold WF
  infer_instance

theorem WF.adjOf_mem {s : DagState} (hwf : WF s) {a b : Nat} (h : b ∈ adjOf s a) :
    b ∈ allTodoIds s := by
  rcases hget : mapGet s.adj a with _ | l
  · rw [adjOf, hget] at h
    simp at h
  · rw [adjOf, hget] at h
    simp only [Option.getD_some] at h
    exact (hwf.2.2.2.1 (a, l) (mapGet_mem hget)).2 b h

theorem WF.revOf_mem {s : DagState} (hwf : WF s) {a b : Nat} (h : b ∈ revOf s a) :
    b ∈ allTodoIds s := by
  rcases hget : mapGet s.rev a with _ | l
  · rw [revOf, hget] at h
    simp at h
  · rw [revOf, hget] at h
    simp only [Option.getD_some] at h
    exact (hwf.2.2.2.2.1 (a, l) (mapGet_mem hget)).2 b h

/-- Forward and reverse adjacency mirror each other. -/
theorem WF.mirror {s : DagState} (hwf : WF s) (a b : Nat) :
    b ∈ adjOf s a ↔ a ∈ revOf s b := by
  constructor
  · intro h
    rcases hget : mapGet s.adj a with _ | l
    · rw [adjOf, hget] at h
      simp at h
    · rw [adjOf, hget] at h
      simp only [Option.getD_some] at h
      exact hwf.2.2.2.2.2.1 (a, l) (mapGet_mem hget) b h
  · intro h
    rcases hget : mapGet s.rev b with _ | l
    · rw [revOf, hget] at h
      simp at h
    · rw [revOf, hget] at h
      simp only [Option.getD_some] at h
      exact hwf.2.2.2.2.2.2 (b, l) (mapGet_mem hget) a h

/-- Under the mirror invariant, walking reverse adjacency from `x` reaches
exactly the nodes from which `x` is forward-reachable. -/
theorem revReaches_iff_reaches {s : DagState} (hwf : WF s) (x y : Nat) :
    RevReaches s x y ↔ Reaches s y x := by
  constructor
  · intro h
    induction h with
    | refl => exact Relation.ReflTransGen.refl
    | tail _ hbc ih =>
      exact Relation.ReflTransGen.head ((hwf.mirror _ _).2 hbc) ih
  · intro h
    induction h with
    | refl => exact Relation.ReflTransGen.refl
    | tail _ hbc ih =>
      exact Relation.ReflTransGen.head ((hwf.mirror _ _).1 hbc) ih

theorem mapHas_adj_of_wf {s : DagState} (hwf : WF s) (n : Nat) :
    mapHas s.adj n = mapHas s.todos n := by
  by_cases h : mapHas s.todos n
  · have := (mapHas_iff_mem_keys s.todos n).1 h
    rw [h]
    exact (mapHas_iff_mem_keys s.adj n).2 (hwf.2.1 ▸ this)
  · have hb : (mapHas s.todos n) = false := by simpa using h
    rw [hb]
    cases hadj : mapHas s.adj n with
    | false => rfl
    | true =>
      exact absurd
        ((mapHas_iff_mem_keys s.todos n).2 (hwf.2.1 ▸ (mapHas_iff_mem_keys s.adj n).1 hadj)) h

theorem mapHas_rev_of_wf {s : DagState} (hwf : WF s) (n : Nat) :
    mapHas s.rev n = mapHas s.todos n := by
  by_cases h : mapHas s.todos n
  · have := (mapHas_iff_mem_keys s.todos n).1 h
    rw [h]
    exact (mapHas_iff_mem_keys s.rev n).2 (hwf.2.2.1 ▸ this)
  · have hb : (mapHas s.todos n) = false := by simpa using h
    rw [hb]
    cases hrev : mapHas s.rev n with
    | false => rfl
    | true =>
      exact absurd
        ((mapHas_iff_mem_keys s.todos n).2 (hwf.2.2.1 ▸ (mapHas_iff_mem_keys s.rev n).1 hrev)) h

end TodoDag

namespace TodoDag

/-! ### Idempotence of the scheduler (claim C7)

`calculateEarliestStartTimes` reads only the todo ids, their durations, and
the two adjacency maps, and writes only `minimumHours`; hence running it a
second time recomputes the identical map and rewrites identical values. -/

theorem kahnLoop_congr {s1 s2 : DagState} (h : s1.adj = s2.adj) (durM : NMap Nat) :
    ∀ fuel queue indeg es,
      kahnLoop s1 durM fuel queue indeg es = kahnLoop s2 durM fuel queue indeg es := by
  intro fuel
  induction fuel with
  | zero => intro queue indeg es; rfl
  | succ fuel ih =>
    intro queue indeg es
    match queue with
    | [] => rfl
    | c :: q =>
      have hadj : adjOf s1 c = adjOf s2 c := by rw [adjOf, adjOf, h]
      rw [kahnLoop, kahnLoop, hadj, ih]

theorem calcDur_eq_durList (s : DagState) :
    calcDur s
      = (s.todos.map (fun p => (p.1, p.2.duration))).foldl (fun m q => mapSet m q.1 q.2) [] := by
  rw [List.foldl_map]
  rfl

theorem calcEs0_eq_keys (s : DagState) :
    calcEs0 s = (s.todos.map Prod.fst).foldl (fun m k => mapSet m k 0) [] := by
  rw [List.foldl_map]
  rfl

theorem calcIndeg0_eq_keys (s : DagState) :
    calcIndeg0 s
      = (s.todos.map Prod.fst).foldl
          (fun m k => mapSet m k ((revOf s k).length : Int)) [] := by
  rw [List.foldl_map]
  rfl

theorem calc_todos_keys (s : DagState) :
    (calculateEarliestStartTimes s).todos.map Prod.fst = s.todos.map Prod.fst := by
  simp [calculateEarliestStartTimes]

theorem calc_todos_durList (s : DagState) :
    (calculateEarliestStartTimes s).todos.map (fun p => (p.1, p.2.duration))
      = s.todos.map (fun p => (p.1, p.2.duration)) := by
  simp [calculateEarliestStartTimes]

theorem calc_adj (s : DagState) : (calculateEarliestStartTimes s).adj = s.adj := rfl

theorem calc_rev (s : DagState) : (calculateEarliestStartTimes s).rev = s.rev := rfl

theorem calc_cache (s : DagState) : (calculateEarliestStartTimes s).cache = s.cache := rfl

theorem kahnRun_calc (s : DagState) :
    kahnRun (calculateEarliestStartTimes s) = kahnRun s := by
  have hroot : rootNodes (calculateEarliestStartTimes s) = rootNodes s := rfl
  have hrev : revOf (calculateEarliestStartTimes s) = revOf s := rfl
  have hdur : calcDur (calculateEarliestStartTimes s) = calcDur s := by
    rw [calcDur_eq_durList, calcDur_eq_durList, calc_todos_durList]
  have hes : calcEs0 (calculateEarliestStartTimes s) = calcEs0 s := by
    rw [calcEs0_eq_keys, calcEs0_eq_keys, calc_todos_keys]
  have hind : calcIndeg0 (calculateEarliestStartTimes s) = calcIndeg0 s := by
    rw [calcIndeg0_eq_keys, calcIndeg0_eq_keys, hrev, calc_todos_keys]
  rw [kahnRun, kahnRun, hroot, hdur, hes, hind, kahnLoop_congr (calc_adj s)]

/-- The scheduler is a closure operator on states: a second run recomputes
the identical earliest-start map and rewrites identical values. -/
theorem calc_idempotent (s : DagState) :
    calculateEarliestStartTimes (calculateEarliestStartTimes s)
      = calculateEarliestStartTimes s := by
  conv_lhs => rw [calculateEarliestStartTimes]
  rw [kahnRun_calc]
  cases s with
  | mk todos adj rev cache =>
    simp only [calculateEarliestStartTimes, List.map_map]
    congr 1

end TodoDag

namespace TodoDag

/-- Claim C7: the scheduler is idempotent — recomputing earliest start
times twice in a row with no intervening graph mutation leaves every task's
`minimumHours` (and the whole state) identical to the result of the first
call. -/
theorem C7_calculateEarliestStartTimes_idempotent (s : DagState) :
    calculateEarliestStartTimes (calculateEarliestStartTimes s)
      = calculateEarliestStartTimes s :=
  calc_idempotent s

end TodoDag

namespace TodoDag

/-- Looking up in a map whose values were rewritten key-dependently. -/
theorem mapGet_map_value {α β : Type} (f : Nat → α → β) (l : NMap α) (k : Nat) :
    mapGet (l.map (fun p => (p.1, f p.1 p.2))) k = (mapGet l k).map (f k) := by
  induction l with
  | nil => simp [mapGet]
  | cons p l ih =>
    by_cases hp : p.1 = k
    · subst hp
      simp [mapGet_cons]
    · simp [mapGet_cons, hp, ih]

/-! ### Concrete example states -/

def exTodo1 : Todo := ⟨1, "a", "", "", 2, 0⟩
def exTodo2 : Todo := ⟨2, "b", "", "", 3, 0⟩
def exTodo3 : Todo := ⟨3, "c", "", "", 4, 0⟩

/-- Two independent todos (ids 1 and 2, durations 2 and 3), built through
the public API from the empty graph. -/
def s2ex : DagState := addTodo (addTodo emptyDag exTodo1) exTodo2

/-- Claim C1 (refuting evidence): starting from the empty graph, the call
sequence addTodo(1), addTodo(2), addDependency(1,2), addDependency(2,1)
reports success for BOTH edge additions — `addDependency` commits the edge
without any cycle guard (contradicting its own doc comment, which promises
`false if it would create a cycle`) — and afterwards task 1 is reachable
from itself via a non-empty chain of forward edges. -/
theorem C1_addDependency_reports_success_on_cycle :
    (addDependency s2ex 1 2).1 = true ∧
    (addDependency (addDependency s2ex 1 2).2 2 1).1 = true ∧
    Relation.TransGen (Edge (addDependency (addDependency s2ex 1 2).2 2 1).2) 1 1 := by
  refine ⟨by decide, by decide, ?_⟩
  have h12 : Edge (addDependency (addDependency s2ex 1 2).2 2 1).2 1 2 := by decide
  have h21 : Edge (addDependency (addDependency s2ex 1 2).2 2 1).2 2 1 := by decide
  exact Relation.TransGen.tail (Relation.TransGen.single h12) h21

/-- The diamond of the spec's scenario 5 — A→B, A→C, B→D, C→D with
durations A=1, B=2, C=5, D=1 — realized in dag.ts form with ids A=1, B=3,
C=2, D=4. -/
def sC2 : DagState :=
  ⟨[(1, ⟨1, "A", "", "", 1, 0⟩), (3, ⟨3, "B", "", "", 2, 0⟩),
    (2, ⟨2, "C", "", "", 5, 0⟩), (4, ⟨4, "D", "", "", 1, 0⟩)],
   [(1, [3, 2]), (3, [4]), (2, [4]), (4, [])],
   [(1, []), (3, [1]), (2, [1]), (4, [3, 2])],
   []⟩

/-- The same diamond in the weighted (part_005) representation: every edge
carries its source's duration. -/
def sW2 : W.WDagState :=
  ⟨[(1, ⟨1, "A", "", "", 1, 0⟩), (3, ⟨3, "B", "", "", 2, 0⟩),
    (2, ⟨2, "C", "", "", 5, 0⟩), (4, ⟨4, "D", "", "", 1, 0⟩)],
   [(1, [(3, 1), (2, 1)]), (3, [(4, 2)]), (2, [(4, 5)]), (4, [])],
   [(1, []), (3, [1]), (2, [1]), (4, [3, 2])],
   []⟩

/-- Claim C2 (refuting evidence): on the well-formed acyclic diamond with
durations A=1, B=2, C=5, D=1 (ids A=1, B=3, C=2, D=4), dag.ts's
`getCriticalPath(A)` returns the path THROUGH B, `[1, 3, 4]`, not the
duration-maximal path through C: iterating `Set.entries()` makes the
destructured `edgeWeight` the neighbor's id, so durations never enter the
comparison.  The earlier weighted revision (part_005) of the same function
returns `[1, 2, 4]` — the path through C demanded by the spec. -/
theorem C2_getCriticalPath_weight_bug :
    WF sC2 ∧ Acyclic sC2 ∧
    getCriticalPath sC2 1 = [1, 3, 4] ∧
    getCriticalPath sC2 1 ≠ [1, 2, 4] ∧
    W.getCriticalPath sW2 1 = [1, 2, 4] := by
  refine ⟨by decide, by decide, by decide, by decide, by decide⟩

/-- Claim C3 (counterexample): on the two-todo state, a successful
`addDependency(1, 2)` leaves task 2's `minimumHours` at 0 even though the
new edge forces earliest start 2 — the state is not a fixpoint of the
scheduler, so no recompute happened inside the call; and `addTodo` after a
`getSafeTargets(1)` query leaves the stale cache entry `(1, [2])` in place
instead of invalidating it. -/
theorem C3_counterexample_mutators :
    ((addDependency s2ex 1 2).1 = true ∧
      (mapGet (addDependency s2ex 1 2).2.todos 2).map (fun t => t.minimumHours)
        = some 0 ∧
      calculateEarliestStartTimes (addDependency s2ex 1 2).2
        ≠ (addDependency s2ex 1 2).2) ∧
    (addTodo (getSafeTargets s2ex 1).2 exTodo3).cache = [(1, [2])] := by
  exact ⟨⟨by decide, by decide, by decide⟩, by decide⟩

/-- Claim C3 (amended): the actual side-effect discipline of the mutators.
A successful `addDependency` clears the safe-target cache but performs no
recompute (the todos, hence all `minimumHours`, are untouched); `addTodo`
recomputes eagerly (its result is a scheduler fixpoint) but does not touch
the cache; `deleteDependency` (when the edge exists) and `deleteNode`
both clear the cache and recompute eagerly. -/
theorem C3_amended_side_effect_discipline (s : DagState) (t : Todo) (a b n : Nat) :
    ((addDependency s a b).1 = true →
      (addDependency s a b).2.cache = [] ∧ (addDependency s a b).2.todos = s.todos) ∧
    (calculateEarliestStartTimes (addTodo s t) = addTodo s t ∧
      (addTodo s t).cache = s.cache) ∧
    (hasDependency s a b = true →
      (deleteDependency s a b).cache = [] ∧
      calculateEarliestStartTimes (deleteDependency s a b) = deleteDependency s a b) ∧
    ((deleteNode s n).cache = [] ∧
      calculateEarliestStartTimes (deleteNode s n) = deleteNode s n) := by
  refine ⟨?_, ⟨?_, ?_⟩, ?_, ⟨?_, ?_⟩⟩
  · intro h
    rw [addDependency] at h ⊢
    by_cases hc : hasTodo s a && hasTodo s b
    · rw [if_pos hc]
      exact ⟨rfl, rfl⟩
    · rw [if_neg hc] at h
      simp at h
  · exact calc_idempotent _
  · rw [addTodo, calc_cache, addNode]
    by_cases hc : mapHas s.adj (Todo.id t)
    · rw [if_pos hc]
    · rw [if_neg hc]
  · intro h
    rw [deleteDependency, if_pos h]
    exact ⟨(calc_cache _).trans rfl, calc_idempotent _⟩
  · rw [deleteNode, calc_cache]
  · exact calc_idempotent _

/-- Witness for the amended C3 at concrete inputs, discharging both
implications. -/
theorem C3_amended_witness :
    ((addDependency s2ex 1 2).2.cache = [] ∧ (addDependency s2ex 1 2).2.todos = s2ex.todos) ∧
    ((deleteDependency (addDependency s2ex 1 2).2 1 2).cache = [] ∧
      calculateEarliestStartTimes (deleteDependency (addDependency s2ex 1 2).2 1 2)
        = deleteDependency (addDependency s2ex 1 2).2 1 2) ∧
    calculateEarliestStartTimes (addTodo s2ex exTodo3) = addTodo s2ex exTodo3 := by
  refine ⟨(C3_amended_side_effect_discipline s2ex exTodo3 1 2 1).1 (by decide),
    (C3_amended_side_effect_discipline (addDependency s2ex 1 2).2 exTodo3 1 2 1).2.2.1
      (by decide),
    (C3_amended_side_effect_discipline s2ex exTodo3 1 2 1).2.1.1⟩

/-- A well-formed two-todo state with edge 1→2 (durations 2 and 3,
earliest starts already consistent: task 2 starts at hour 2). -/
def sC9 : DagState :=
  ⟨[(1, ⟨1, "a", "", "", 2, 0⟩), (2, ⟨2, "b", "", "", 3, 2⟩)],
   [(1, [2]), (2, [])],
   [(1, []), (2, [1])],
   []⟩

/-- A different todo object with the already-present id 1. -/
def newTodo1 : Todo := ⟨1, "x", "", "", 5, 0⟩

/-- Claim C9 (counterexample): `addTodo` with an existing id is NOT a
no-op — `idToTodo.set` replaces the stored task object with the argument
(here changing the title from a to x and the duration from 2 to 5), and the
eager recompute then changes task 2's `minimumHours` from 2 to 5. -/
theorem C9_counterexample_addTodo_overwrites :
    mapGet (addTodo sC9 newTodo1).todos 1 ≠ mapGet sC9.todos 1 ∧
    mapGet (addTodo sC9 newTodo1).todos 2 ≠ mapGet sC9.todos 2 := by
  exact ⟨by decide, by decide⟩

/-- `minimumHours` rewriting commutes with lookup. -/
theorem mapGet_setMin (l : NMap Todo) (g : Nat → Nat) (k : Nat) :
    mapGet (l.map (fun p => (p.1, { p.2 with minimumHours := g p.1 }))) k
      = (mapGet l k).map (fun td => { td with minimumHours := g k }) := by
  induction l with
  | nil => rfl
  | cons p l ih =>
    by_cases hp : p.1 = k
    · subst hp
      simp [mapGet_cons]
    · simp [mapGet_cons, hp, ih]

theorem mapGet_calc_todos (s : DagState) (k : Nat) :
    mapGet (calculateEarliestStartTimes s).todos k
      = (mapGet s.todos k).map
          (fun td => { td with minimumHours := (mapGet (kahnRun s).1 k).getD 0 }) := by
  rw [calculateEarliestStartTimes]
  exact mapGet_setMin s.todos (fun j => (mapGet (kahnRun s).1 j).getD 0) k

/-- Claim C9 (amended): `addTodo` with an already-present id preserves both
adjacency maps — no existing edge is silently overwritten, because
`addNode` is guarded — but it does replace the stored task object with the
argument (whose `minimumHours` is then recomputed) and reruns the
scheduler over the whole graph. -/
theorem C9_amended_addTodo_existing (s : DagState) (t : Todo)
    (h : mapHas s.adj t.id = true) :
    (addTodo s t).adj = s.adj ∧ (addTodo s t).rev = s.rev ∧
    ∃ m, mapGet (addTodo s t).todos t.id = some { t with minimumHours := m } := by
  rw [addTodo, addNode]
  rw [if_pos (show mapHas ({ s with todos := mapSet s.todos t.id t } : DagState).adj t.id
    from by simpa using h)]
  refine ⟨calc_adj _, calc_rev _, ?_⟩
  refine ⟨(mapGet (kahnRun { s with todos := mapSet s.todos t.id t }).1 t.id).getD 0, ?_⟩
  rw [mapGet_calc_todos]
  have hget : mapGet ({ s with todos := mapSet s.todos t.id t } : DagState).todos t.id
      = some t := mapGet_mapSet_self s.todos t.id t
  rw [hget]
  rfl

/-- Witness for the amended C9: adding a changed task object with the
existing id 1 keeps both adjacency maps of `sC9` intact. -/
theorem C9_amended_witness :
    (addTodo sC9 newTodo1).adj = sC9.adj ∧ (addTodo sC9 newTodo1).rev = sC9.rev ∧
    ∃ m, mapGet (addTodo sC9 newTodo1).todos 1 = some { newTodo1 with minimumHours := m } :=
  C9_amended_addTodo_existing sC9 newTodo1 (by decide)

/-- The state reached by: two todos, a `getSafeTargets(1)` query (which
caches `[2]`), then `addTodo(3)` — which fails to invalidate the cache. -/
def c4state : DagState := addTodo (getSafeTargets s2ex 1).2 exTodo3

/-- Claim C4 (refuting evidence): in `c4state`, task 3 is present in the
store and task 1 is not reachable from it, so the claimed equivalence
demands 3 ∈ getSafeTargets(1); but the call returns the stale cached list
`[2]`, which misses 3 — `addTodo` does not invalidate the safe-target
cache. -/
theorem C4_getSafeTargets_stale_cache_bug :
    3 ∈ allTodoIds c4state ∧ ¬ Reaches c4state 3 1 ∧
    (getSafeTargets c4state 1).1 = [2] ∧ 3 ∉ (getSafeTargets c4state 1).1 := by
  exact ⟨by decide, by decide, by decide, by decide⟩

end TodoDag

namespace TodoDag

/-! ### Claim C6: the two cycle-guard implementations agree -/

/-- The weighted revision describes the same graph as the dag.ts state:
stripping the edge weights from its forward adjacency yields exactly the
dag.ts forward adjacency. -/
def Agrees (s : DagState) (w : W.WDagState) : Prop :=
  w.adj.map (fun p => (p.1, p.2.map Prod.fst)) = s.adj

instance (s : DagState) (w : W.WDagState) : Decidable (Agrees s w) := by
  unfold Agrees
  infer_instance

theorem Agrees.adjKeysOf_eq {s : DagState} {w : W.WDagState} (h : Agrees s w)
    (n : Nat) : W.adjKeysOf w n = adjOf s n := by
  have hget : mapGet s.adj n = (mapGet w.adj n).map (fun v => v.map Prod.fst) := by
    rw [← h]
    exact mapGet_map_value (fun _ v => v.map Prod.fst) w.adj n
  rw [W.adjKeysOf, W.adjEntriesOf, adjOf, hget]
  rcases mapGet w.adj n with _ | l <;> simp

theorem Agrees.wReaches_iff {s : DagState} {w : W.WDagState} (h : Agrees s w)
    (a b : Nat) : W.WReaches w a b ↔ Reaches s a b := by
  have hedge : ∀ x y, W.WEdge w x y ↔ Edge s x y := by
    intro x y
    rw [W.WEdge, Edge, h.adjKeysOf_eq]
  constructor
  · intro hr
    induction hr with
    | refl => exact Relation.ReflTransGen.refl
    | tail _ hbc ih => exact Relation.ReflTransGen.tail ih ((hedge _ _).1 hbc)
  · intro hr
    induction hr with
    | refl => exact Relation.ReflTransGen.refl
    | tail _ hbc ih => exact Relation.ReflTransGen.tail ih ((hedge _ _).2 hbc)

/-- Claim C6: on a common well-formed graph, and when neither revision has
a cached entry for `p` (so both actually run their algorithm), the
safe-target set computed by the ancestor-set method of dag.ts equals, as a
set of ids, the safe-target set computed by the per-candidate forward
reachability probe of part_005. -/
theorem C6_safe_targets_two_implementations_agree
    (s : DagState) (w : W.WDagState) (p d : Nat)
    (hwf : WF s) (hag : Agrees s w)
    (hc1 : mapGet s.cache p = none) (hc2 : mapGet w.cache p = none) :
    d ∈ (getSafeTargets s p).1 ↔ d ∈ (W.getSafeTargets w p).1 := by
  have hkeys : w.adj.map Prod.fst = allTodoIds s := by
    have : (w.adj.map (fun q => (q.1, q.2.map Prod.fst))).map Prod.fst
        = w.adj.map Prod.fst := by
      rw [List.map_map]
      rfl
    rw [← this, hag]
    exact hwf.2.1
  have hL : d ∈ (getSafeTargets s p).1 ↔ d ∈ allTodoIds s ∧ ¬ Reaches s d p := by
    rw [getSafeTargets, hc1]
    simp only [List.mem_filter, decide_eq_true_eq]
    rw [ancestors_mem, revReaches_iff_reaches hwf]
  have hR : d ∈ (W.getSafeTargets w p).1
      ↔ d ∈ allTodoIds s ∧ d ≠ p ∧ ¬ Reaches s d p := by
    rw [W.getSafeTargets, hc2]
    simp only [List.mem_filter, Bool.and_eq_true, bne_iff_ne, Bool.not_eq_true',
      ← Bool.not_eq_true]
    rw [W.isReachable_iff, hag.wReaches_iff, hkeys]
  rw [hL, hR]
  constructor
  · rintro ⟨hd, hnr⟩
    refine ⟨hd, ?_, hnr⟩
    intro he
    exact hnr (he ▸ Relation.ReflTransGen.refl)
  · rintro ⟨hd, _, hnr⟩
    exact ⟨hd, hnr⟩

/-- The graph of `sC9` (edge 1→2) in the weighted representation. -/
def wC6 : W.WDagState :=
  ⟨[(1, ⟨1, "a", "", "", 2, 0⟩), (2, ⟨2, "b", "", "", 3, 2⟩)],
   [(1, [(2, 2)]), (2, [])],
   [(1, []), (2, [1])],
   []⟩

/-- Witness for C6 on the concrete one-edge graph: both implementations
agree that task 2 is a safe target of task 1. -/
theorem C6_witness :
    2 ∈ (getSafeTargets sC9 1).1 ↔ 2 ∈ (W.getSafeTargets wC6 1).1 :=
  C6_safe_targets_two_implementations_agree sC9 wC6 1 2
    (by decide) (by decide) (by decide) (by decide)

end TodoDag

namespace TodoDag

/-! ### Claim C8: structure of the returned critical path -/

theorem cpFold_some_inv (results : List (Nat × Nat × List Nat)) (b0 : Nat × List Nat) :
    ∃ b, results.foldl cpFold (some b0) = some b ∧
      (b = b0 ∨ ∃ r ∈ results, b = (r.1 + r.2.1, r.2.2)) := by
  induction results generalizing b0 with
  | nil => exact ⟨b0, rfl, Or.inl rfl⟩
  | cons r rest ih =>
    by_cases hcmp : r.1 + r.2.1 > b0.1
    · have hstep : cpFold (some b0) r = some (r.1 + r.2.1, r.2.2) := by
        simp [cpFold, hcmp]
      rcases ih (r.1 + r.2.1, r.2.2) with ⟨b, hftail, hb⟩
      refine ⟨b, by simpa [hstep] using hftail, ?_⟩
      rcases hb with hb | ⟨r', hr', hb'⟩
      · exact Or.inr ⟨r, List.mem_cons_self _ _, hb⟩
      · exact Or.inr ⟨r', List.mem_cons_of_mem _ hr', hb'⟩
    · have hstep : cpFold (some b0) r = some b0 := by
        simp [cpFold, hcmp]
      rcases ih b0 with ⟨b, hftail, hb⟩
      refine ⟨b, by simpa [hstep] using hftail, ?_⟩
      rcases hb with hb | ⟨r', hr', hb'⟩
      · exact Or.inl hb
      · exact Or.inr ⟨r', List.mem_cons_of_mem _ hr', hb'⟩

theorem cpFold_none_inv (results : List (Nat × Nat × List Nat)) (h : results ≠ []) :
    ∃ b, results.foldl cpFold none = some b ∧
      ∃ r ∈ results, b = (r.1 + r.2.1, r.2.2) := by
  match results with
  | [] => exact absurd rfl h
  | r :: rest =>
    have hstep : cpFold none r = some (r.1 + r.2.1, r.2.2) := rfl
    rcases cpFold_some_inv rest (r.1 + r.2.1, r.2.2) with ⟨b, hftail, hb⟩
    refine ⟨b, by simpa [hstep] using hftail, ?_⟩
    rcases hb with hb | ⟨r', hr', hb'⟩
    · exact ⟨r, List.mem_cons_self _ _, hb⟩
    · exact ⟨r', List.mem_cons_of_mem _ hr', hb'⟩

/-- The (decidable) forward-reachability set within the store, used as the
termination measure for `findMaxPath` on acyclic graphs. -/
def reachList (s : DagState) (n : Nat) : List Nat :=
  (allTodoIds s).filter (fun m => decide (Reaches s n m))

theorem filter_length_mono (l : List Nat) (p q : Nat → Bool)
    (h : ∀ a ∈ l, p a = true → q a = true) :
    (l.filter p).length ≤ (l.filter q).length := by
  induction l with
  | nil => simp
  | cons a l ih =>
    have ih' := ih (fun x hx => h x (List.mem_cons_of_mem _ hx))
    by_cases hp : p a = true
    · have hq := h a (List.mem_cons_self _ _) hp
      simp [List.filter_cons, hp, hq]
      omega
    · have hp' : p a = false := by simpa using hp
      rw [List.filter_cons, List.filter_cons]
      by_cases hq : q a = true
      · simp [hp', hq]
        omega
      · have hq' : q a = false := by simpa using hq
        simp [hp', hq']
        omega

theorem filter_length_strict (l : List Nat) (p q : Nat → Bool)
    (h : ∀ a ∈ l, p a = true → q a = true)
    (x : Nat) (hx : x ∈ l) (hqx : q x = true) (hpx : p x = false) :
    (l.filter p).length < (l.filter q).length := by
  induction l with
  | nil => simp at hx
  | cons a l ih =>
    have hmono := filter_length_mono l p q (fun y hy => h y (List.mem_cons_of_mem _ hy))
    rcases List.mem_cons.1 hx with rfl | hx'
    · rw [List.filter_cons, List.filter_cons, hpx, hqx]
      simp
      omega
    · rw [List.filter_cons, List.filter_cons]
      have ih' := ih (fun y hy h' => h y (List.mem_cons_of_mem _ hy) h') hx'
      by_cases hp : p a = true
      · have hq := h a (List.mem_cons_self _ _) hp
        simp [hp, hq]
        omega
      · have hp' : p a = false := by simpa using hp
        by_cases hq : q a = true
        · simp [hp', hq]
          omega
        · have hq' : q a = false := by simpa using hq
          simp [hp', hq']
          omega

/-- On an acyclic well-formed graph, stepping to a forward neighbor
strictly shrinks the reachability set. -/
theorem reachList_step {s : DagState} (_hwf : WF s) (hac : Acyclic s)
    {node nb : Nat} (hnode : node ∈ allTodoIds s) (hnb : nb ∈ adjOf s node) :
    (reachList s nb).length < (reachList s node).length := by
  have hedge : ¬ Reaches s nb node := by
    rcases hget : mapGet s.adj node with _ | l
    · rw [adjOf, hget] at hnb
      simp at hnb
    · rw [adjOf, hget] at hnb
      simp only [Option.getD_some] at hnb
      exact hac (node, l) (mapGet_mem hget) nb hnb
  apply filter_length_strict
  · intro a _ ha
    rw [decide_eq_true_eq] at ha ⊢
    exact Relation.ReflTransGen.head hnb ha
  · exact hnode
  · rw [decide_eq_true_eq]
    exact Relation.ReflTransGen.refl
  · simp only [decide_eq_false_iff_not]
    exact hedge

theorem findMaxPath_spec (s : DagState) (hwf : WF s) (hac : Acyclic s) :
    ∀ fuel node, node ∈ allTodoIds s → (reachList s node).length < fuel →
      (findMaxPath s fuel node).2.head? = some node ∧
      List.Chain' (Edge s) (findMaxPath s fuel node).2 ∧
      ∃ lastN, (findMaxPath s fuel node).2.getLast? = some lastN ∧ adjOf s lastN = [] := by
  intro fuel
  induction fuel with
  | zero =>
    intro node _ hmeas
    omega
  | succ fuel ih =>
    intro node hnode hmeas
    by_cases hempty : (adjOf s node).isEmpty
    · rw [findMaxPath, if_pos hempty]
      refine ⟨rfl, by simp, node, rfl, ?_⟩
      exact List.isEmpty_iff.1 hempty
    · have hne : (adjOf s node) ≠ [] := fun h => hempty (by simp [h])
      have hresne : ((adjOf s node).map (fun nb => (nb, findMaxPath s fuel nb))) ≠ [] := by
        simpa using hne
      rcases cpFold_none_inv _ hresne with ⟨b, hfold, r, hr, hb⟩
      rcases List.mem_map.1 hr with ⟨nb, hnbmem, hreq⟩
      have hnbids : nb ∈ allTodoIds s := hwf.adjOf_mem hnbmem
      have hnbmeas : (reachList s nb).length < fuel := by
        have := reachList_step hwf hac hnode hnbmem
        omega
      rcases ih nb hnbids hnbmeas with ⟨hhead, hchain, lastN, hlast, hsink⟩
      have hpath : (findMaxPath s (fuel + 1) node).2 = node :: (findMaxPath s fuel nb).2 := by
        rw [findMaxPath, if_neg hempty]
        show (match List.foldl cpFold none
            ((adjOf s node).map (fun nb => (nb, findMaxPath s fuel nb))) with
          | some b => (b.1, node :: b.2)
          | none => (0, [node])).2 = node :: (findMaxPath s fuel nb).2
        rw [hfold, hb, ← hreq]
      rcases hhd : (findMaxPath s fuel nb).2 with _ | ⟨x, t⟩
      · rw [hhd] at hhead
        simp at hhead
      · have hxnb : x = nb := by
          rw [hhd] at hhead
          simpa using hhead
        refine ⟨by rw [hpath]; rfl, ?_, lastN, ?_, hsink⟩
        · rw [hpath, List.chain'_cons']
          refine ⟨?_, hchain⟩
          intro y hy
          rw [hhd] at hy
          have hynb : x = y := by simpa using hy
          rw [← hynb, hxnb]
          exact hnbmem
        · rw [hpath, hhd]
          rw [hhd] at hlast
          simpa using hlast

/-- Claim C8: on every well-formed acyclic graph, `getCriticalPath(root)`
returns `[]` when the root is not in the store; when it is, the returned
sequence is non-empty, begins with the root, every consecutive pair is an
actual forward edge, and the last element has no dependents. -/
theorem C8_getCriticalPath_structure (s : DagState) (root : Nat)
    (hwf : WF s) (hac : Acyclic s) :
    (mapHas s.todos root = false → getCriticalPath s root = []) ∧
    (mapHas s.todos root = true →
      (getCriticalPath s root).head? = some root ∧
      List.Chain' (Edge s) (getCriticalPath s root) ∧
      ∃ lastN, (getCriticalPath s root).getLast? = some lastN ∧ adjOf s lastN = []) := by
  constructor
  · intro h
    rw [getCriticalPath, if_neg (by simp [h])]
  · intro h
    rw [getCriticalPath, if_pos h]
    apply findMaxPath_spec s hwf hac
    · exact (mapHas_iff_mem_keys s.todos root).1 h
    · have : (reachList s root).length ≤ (allTodoIds s).length :=
        List.length_filter_le _ _
      rw [numTodos]
      have hlen : (allTodoIds s).length = s.todos.length := by
        simp [allTodoIds]
      omega

/-- Witness for C8 on the concrete diamond: unknown root 9 yields the
empty path; root 1 yields a path starting at 1, following real edges, and
ending at the sink. -/
theorem C8_witness :
    getCriticalPath sC2 9 = [] ∧
    ((getCriticalPath sC2 1).head? = some 1 ∧
      List.Chain' (Edge sC2) (getCriticalPath sC2 1) ∧
      ∃ lastN, (getCriticalPath sC2 1).getLast? = some lastN ∧ adjOf sC2 lastN = []) :=
  ⟨(C8_getCriticalPath_structure sC2 9 (by decide) (by decide)).1 (by decide),
   (C8_getCriticalPath_structure sC2 1 (by decide) (by decide)).2 (by decide)⟩

end TodoDag

namespace TodoDag

/-! ### Helpers for the scheduler proofs -/

/-- Maximum of a list of naturals, 0 for the empty list (the relaxation
`earliestStart[d] = max(earliestStart[d], finish)` starting from 0 computes
exactly this over the processed incoming finish times). -/
def listMax (l : List Nat) : Nat := l.foldr max 0

theorem listMax_le_iff (l : List Nat) (m : Nat) :
    listMax l ≤ m ↔ ∀ x ∈ l, x ≤ m := by
  induction l with
  | nil => simp [listMax]
  | cons a l ih =>
    simp only [listMax, List.foldr_cons, max_le_iff, List.mem_cons]
    rw [listMax] at ih
    rw [ih]
    constructor
    · rintro ⟨h1, h2⟩ x (rfl | hx)
      · exact h1
      · exact h2 x hx
    · intro h
      exact ⟨h a (Or.inl rfl), fun x hx => h x (Or.inr hx)⟩

theorem le_listMax_of_mem {l : List Nat} {x : Nat} (h : x ∈ l) : x ≤ listMax l := by
  induction l with
  | nil => simp at h
  | cons a l ih =>
    rcases List.mem_cons.1 h with rfl | h'
    · exact le_max_left _ _
    · exact le_trans (ih h') (le_max_right _ _)

theorem listMax_cons (a : Nat) (l : List Nat) :
    listMax (a :: l) = max a (listMax l) := rfl

theorem listMax_mem {l : List Nat} (h : l ≠ []) : listMax l ∈ l ∨ listMax l = 0 := by
  induction l with
  | nil => exact absurd rfl h
  | cons a l ih =>
    rw [listMax_cons]
    by_cases hl : l = []
    · subst hl
      simp [listMax]
    · rcases ih hl with hmem | hzero
      · rcases le_total a (listMax l) with hle | hle
        · left
          rw [max_eq_right hle]
          exact List.mem_cons_of_mem _ hmem
        · left
          rw [max_eq_left hle]
          exact List.mem_cons_self _ _
      · rcases Nat.eq_zero_or_pos a with ha | ha
        · right
          omega
        · left
          rw [hzero, max_eq_left (by omega)]
          exact List.mem_cons_self _ _

/-- Splitting the maximum over `filter (· ∈ P ++ [c])` into the maximum
over `filter (· ∈ P)` and the value at `c`. -/
theorem listMax_filter_insert (l : List Nat) (hnd : l.Nodup) (f : Nat → Nat)
    (P : List Nat) (c : Nat) (hc : c ∈ l) (hcP : c ∉ P) :
    listMax ((l.filter (fun p => p ∈ P ++ [c])).map f)
      = max (listMax ((l.filter (fun p => p ∈ P)).map f)) (f c) := by
  induction l with
  | nil => simp at hc
  | cons a l ih =>
    rcases List.nodup_cons.1 hnd with ⟨ha, hnd'⟩
    rcases List.mem_cons.1 hc with rfl | hc'
    · have hf1 : List.filter (fun p => decide (p ∈ P ++ [c])) (c :: l)
          = c :: List.filter (fun p => decide (p ∈ P ++ [c])) l :=
        List.filter_cons_of_pos (by simp)
      have hf2 : List.filter (fun p => decide (p ∈ P)) (c :: l)
          = List.filter (fun p => decide (p ∈ P)) l :=
        List.filter_cons_of_neg (by simpa using hcP)
      have hfe : l.filter (fun p => decide (p ∈ P ++ [c]))
          = l.filter (fun p => decide (p ∈ P)) := by
        apply List.filter_congr
        intro x hx
        have hxa : x ≠ c := fun he => ha (he ▸ hx)
        simp [hxa]
      rw [hf1, hf2, hfe, List.map_cons, listMax_cons]
      exact max_comm _ _
    · have hane : a ≠ c := fun he => ha (he ▸ hc')
      by_cases haP : a ∈ P
      · have hf1 : List.filter (fun p => decide (p ∈ P ++ [c])) (a :: l)
            = a :: List.filter (fun p => decide (p ∈ P ++ [c])) l :=
          List.filter_cons_of_pos (by simp [haP])
        have hf2 : List.filter (fun p => decide (p ∈ P)) (a :: l)
            = a :: List.filter (fun p => decide (p ∈ P)) l :=
          List.filter_cons_of_pos (by simpa using haP)
        rw [hf1, hf2, List.map_cons, List.map_cons, listMax_cons, listMax_cons,
          ih hnd' hc']
        exact (max_assoc _ _ _).symm
      · have hf1 : List.filter (fun p => decide (p ∈ P ++ [c])) (a :: l)
            = List.filter (fun p => decide (p ∈ P ++ [c])) l :=
          List.filter_cons_of_neg (by simp [haP, hane])
        have hf2 : List.filter (fun p => decide (p ∈ P)) (a :: l)
            = List.filter (fun p => decide (p ∈ P)) l :=
          List.filter_cons_of_neg (by simpa using haP)
        rw [hf1, hf2]
        exact ih hnd' hc'

theorem sum_map_ones (l : List Nat) : (l.map (fun _ => (1 : Nat))).sum = l.length := by
  induction l with
  | nil => rfl
  | cons a l ih =>
    simp [ih]
    omega

/-- Dropping a member strictly shrinks a not-in-`P` filter by one. -/
theorem length_filter_drop {l : List Nat} (hnd : l.Nodup) {c : Nat} (hc : c ∈ l)
    {P : List Nat} (hcP : c ∉ P) :
    (l.filter (fun p => p ∉ P)).length
      = (l.filter (fun p => p ∉ P ++ [c])).length + 1 := by
  have h := sum_filter_drop hnd hc hcP (fun _ => (1 : Nat))
  rwa [sum_map_ones, sum_map_ones] at h

/-- Stored duration of a task (0 for unknown ids, as `duration.get(id)!`
cannot miss for stored ids). -/
def durOf (s : DagState) (n : Nat) : Nat :=
  ((mapGet s.todos n).map (fun t => t.duration)).getD 0

/-- Stored earliest start (`minimumHours`) of a task. -/
def minHoursOf (s : DagState) (n : Nat) : Nat :=
  ((mapGet s.todos n).map (fun t => t.minimumHours)).getD 0

/-- Looking up in a map built by repeated `Map.set` from an association
list: before reaching the list's keys the accumulator answers, afterwards
the list does. -/
theorem mapGet_build_go {β : Type} :
    ∀ (l : List (Nat × β)) (acc : NMap β),
      (l.map Prod.fst).Nodup →
      (∀ k, k ∈ l.map Prod.fst → mapGet acc k = none) →
      ∀ k, mapGet (l.foldl (fun m q => mapSet m q.1 q.2) acc) k
        = if k ∈ l.map Prod.fst then mapGet l k else mapGet acc k := by
  intro l
  induction l with
  | nil => intro acc _ _ k; simp
  | cons q l ih =>
    intro acc hnd hacc k
    have hq : mapGet acc q.1 = none := hacc q.1 (by simp)
    have hqhas : ¬ mapHas acc q.1 := by simp [mapHas, hq]
    have hset : mapSet acc q.1 q.2 = acc ++ [(q.1, q.2)] := by
      rw [mapSet, if_neg hqhas]
    have hnd2 : (q.1 :: l.map Prod.fst).Nodup := by simpa using hnd
    rcases List.nodup_cons.1 hnd2 with ⟨hqnl, hnd'⟩
    have hacc' : ∀ j, j ∈ l.map Prod.fst → mapGet (mapSet acc q.1 q.2) j = none := by
      intro j hj
      have hjq : q.1 ≠ j := fun he => hqnl (he ▸ hj)
      rw [hset, mapGet_append_single]
      have : mapGet acc j = none := hacc j (by simp [hj])
      simp [mapHas, this, hjq]
    have := ih (mapSet acc q.1 q.2) hnd' hacc' k
    rw [List.foldl_cons, this]
    by_cases hk : k ∈ l.map Prod.fst
    · have hkq : q.1 ≠ k := fun he => hqnl (he ▸ hk)
      rw [if_pos hk, if_pos (by simp [hk]), mapGet_cons, if_neg hkq]
    · rw [if_neg hk]
      by_cases hkq : q.1 = k
      · subst hkq
        rw [if_pos (by simp), hset, mapGet_append_single, mapGet_cons, if_pos rfl]
        simp [mapHas, hq]
      · have hkq' : ¬ k = q.1 := fun he => hkq he.symm
        rw [if_neg (by simp [hkq', hk]), hset, mapGet_append_single]
        by_cases hin : mapHas acc k
        · simp [hin]
        · have : mapGet acc k = none := by
            cases hg : mapGet acc k with
            | none => rfl
            | some v => exact absurd (by simp [mapHas, hg]) hin
          simp [hin, hkq, hkq', this]

/-- Keys stay duplicate-free through repeated `Map.set`. -/
theorem build_keys_nodup {β γ : Type} (g : γ → Nat) (v : γ → β) :
    ∀ (l : List γ) (acc : NMap β), (acc.map Prod.fst).Nodup →
      (((l.foldl (fun m q => mapSet m (g q) (v q)) acc)).map Prod.fst).Nodup := by
  intro l
  induction l with
  | nil => intro acc h; simpa using h
  | cons q l ih =>
    intro acc h
    rw [List.foldl_cons]
    exact ih _ (keys_mapSet_nodup _ _ h)

/-- Pointwise description of the `duration` map. -/
theorem mapGet_calcDur (s : DagState) (hnd : (s.todos.map Prod.fst).Nodup) (k : Nat) :
    mapGet (calcDur s) k = (mapGet s.todos k).map (fun t => t.duration) := by
  have hfold : calcDur s
      = (s.todos.map (fun p => (p.1, p.2.duration))).foldl
          (fun m q => mapSet m q.1 q.2) [] := calcDur_eq_durList s
  have hkeys : (s.todos.map (fun p => (p.1, p.2.duration))).map Prod.fst
      = s.todos.map Prod.fst := by
    rw [List.map_map]
    rfl
  rw [hfold, mapGet_build_go _ [] (by rw [hkeys]; exact hnd) (fun _ _ => rfl) k]
  rw [hkeys]
  by_cases hk : k ∈ s.todos.map Prod.fst
  · rw [if_pos hk]
    exact mapGet_map_value (fun _ t => t.duration) s.todos k
  · rw [if_neg hk, mapGet_eq_none_of_not_mem hk]
    rfl

/-- Pointwise description of the initial `earliestStart` map. -/
theorem mapGet_calcEs0 (s : DagState) (hnd : (s.todos.map Prod.fst).Nodup) (k : Nat) :
    mapGet (calcEs0 s) k = (mapGet s.todos k).map (fun _ => (0 : Nat)) := by
  have hfold : calcEs0 s
      = (s.todos.map (fun p => (p.1, (0 : Nat)))).foldl
          (fun m q => mapSet m q.1 q.2) [] := by
    rw [List.foldl_map]
    rfl
  have hkeys : (s.todos.map (fun p => (p.1, (0 : Nat)))).map Prod.fst
      = s.todos.map Prod.fst := by
    rw [List.map_map]
    rfl
  rw [hfold, mapGet_build_go _ [] (by rw [hkeys]; exact hnd) (fun _ _ => rfl) k]
  rw [hkeys]
  by_cases hk : k ∈ s.todos.map Prod.fst
  · rw [if_pos hk]
    exact mapGet_map_value (fun _ _ => (0 : Nat)) s.todos k
  · rw [if_neg hk, mapGet_eq_none_of_not_mem hk]
    rfl

/-- Pointwise description of the initial `indegree` map. -/
theorem mapGet_calcIndeg0 (s : DagState) (hnd : (s.todos.map Prod.fst).Nodup) (k : Nat) :
    mapGet (calcIndeg0 s) k
      = (mapGet s.todos k).map (fun _ => ((revOf s k).length : Int)) := by
  have hfold : calcIndeg0 s
      = (s.todos.map (fun p => (p.1, ((revOf s p.1).length : Int)))).foldl
          (fun m q => mapSet m q.1 q.2) [] := by
    rw [List.foldl_map]
    rfl
  have hkeys : (s.todos.map (fun p => (p.1, ((revOf s p.1).length : Int)))).map Prod.fst
      = s.todos.map Prod.fst := by
    rw [List.map_map]
    rfl
  rw [hfold, mapGet_build_go _ [] (by rw [hkeys]; exact hnd) (fun _ _ => rfl) k]
  rw [hkeys]
  by_cases hk : k ∈ s.todos.map Prod.fst
  · rw [if_pos hk]
    exact mapGet_map_value (fun j _ => ((revOf s j).length : Int)) s.todos k
  · rw [if_neg hk, mapGet_eq_none_of_not_mem hk]
    rfl

/-- With duplicate-free keys, a stored entry is the one `Map.get` finds. -/
theorem mapGet_of_mem_nodup {β : Type} {m : NMap β} (hnd : (m.map Prod.fst).Nodup)
    {k : Nat} {v : β} (h : (k, v) ∈ m) : mapGet m k = some v := by
  induction m with
  | nil => simp at h
  | cons p m ih =>
    have hnd2 : (p.1 :: m.map Prod.fst).Nodup := by simpa using hnd
    rcases List.nodup_cons.1 hnd2 with ⟨hp, hnd'⟩
    rcases List.mem_cons.1 h with rfl | h'
    · simp [mapGet_cons]
    · have hpk : p.1 ≠ k := by
        intro he
        apply hp
        rw [he]
        exact List.mem_map.2 ⟨(k, v), h', rfl⟩
      rw [mapGet_cons, if_neg hpk]
      exact ih hnd' h'

/-- A stored id is a root node exactly when its reverse-adjacency set is
empty. -/
theorem mem_rootNodes_iff {s : DagState} (hnd : (s.rev.map Prod.fst).Nodup)
    {n : Nat} (hn : mapHas s.rev n = true) :
    n ∈ rootNodes s ↔ revOf s n = [] := by
  rcases hget : mapGet s.rev n with _ | l
  · rw [mapHas, hget] at hn
    simp at hn
  · have hmem : (n, l) ∈ s.rev := mapGet_mem hget
    constructor
    · intro h
      rcases List.mem_map.1 h with ⟨p, hp, hpn⟩
      have hpl : p.2.isEmpty := (List.mem_filter.1 hp).2
      have hpm : p ∈ s.rev := (List.mem_filter.1 hp).1
      have : mapGet s.rev p.1 = some p.2 := mapGet_of_mem_nodup hnd (by
        cases p
        exact hpm)
      rw [hpn] at this
      rw [hget] at this
      have hl : l = p.2 := by simpa using this
      rw [revOf, hget]
      simp only [Option.getD_some]
      rw [hl]
      exact List.isEmpty_iff.1 hpl
    · intro h
      rw [revOf, hget] at h
      simp only [Option.getD_some] at h
      subst h
      apply List.mem_map.2
      exact ⟨(n, []), List.mem_filter.2 ⟨hmem, by simp⟩, rfl⟩

end TodoDag

namespace TodoDag

/-! ### Pointwise effect and measure of one scheduler step -/

theorem map_replace_id {α : Type} (m : NMap α) (k : Nat) (v : α)
    (h : ∀ p ∈ m, p.1 ≠ k) :
    m.map (fun p => if p.1 = k then (k, v) else p) = m := by
  rw [List.map_congr_left (fun p hp => if_neg (h p hp))]
  exact List.map_id _

theorem kahnStep_cons (nb : Nat) (rest : List Nat) (finish : Nat)
    (indeg : NMap Int) (es : NMap Nat) (queue : List Nat) :
    kahnStep (nb :: rest) finish indeg es queue
      = kahnStep rest finish
          (mapSet indeg nb ((mapGet indeg nb).getD 0 - 1))
          (mapSet es nb (max ((mapGet es nb).getD 0) finish))
          (if (mapGet indeg nb).getD 0 - 1 = 0 then queue ++ [nb] else queue) := rfl

theorem kahnStep_get (children : List Nat) (hnd : children.Nodup) (finish : Nat) :
    ∀ (indeg : NMap Int) (es : NMap Nat) (queue : List Nat),
      (∀ n, mapGet (kahnStep children finish indeg es queue).1 n
          = if n ∈ children then some ((mapGet indeg n).getD 0 - 1)
            else mapGet indeg n) ∧
      (∀ n, mapGet (kahnStep children finish indeg es queue).2.1 n
          = if n ∈ children then some (max ((mapGet es n).getD 0) finish)
            else mapGet es n) ∧
      (kahnStep children finish indeg es queue).2.2
        = queue ++ children.filter (fun nb => decide ((mapGet indeg nb).getD 0 - 1 = 0)) := by
  induction children with
  | nil =>
    intro indeg es queue
    exact ⟨fun n => by simp [kahnStep], fun n => by simp [kahnStep], by simp [kahnStep]⟩
  | cons nb rest ih =>
    intro indeg es queue
    rcases List.nodup_cons.1 hnd with ⟨hnb, hnd'⟩
    rw [kahnStep_cons]
    rcases ih hnd' (mapSet indeg nb ((mapGet indeg nb).getD 0 - 1))
      (mapSet es nb (max ((mapGet es nb).getD 0) finish))
      (if (mapGet indeg nb).getD 0 - 1 = 0 then queue ++ [nb] else queue)
      with ⟨hind, hes, hq⟩
    refine ⟨?_, ?_, ?_⟩
    · intro n
      rw [hind n]
      by_cases hmem : n ∈ rest
      · have hne : n ≠ nb := fun he => hnb (he ▸ hmem)
        rw [if_pos hmem, if_pos (List.mem_cons_of_mem _ hmem),
          mapGet_mapSet_ne _ _ _ _ hne]
      · rw [if_neg hmem]
        by_cases hn : n = nb
        · subst hn
          rw [if_pos (List.mem_cons_self _ _), mapGet_mapSet_self]
        · rw [if_neg (fun h => by
            rcases List.mem_cons.1 h with h | h
            · exact hn h
            · exact hmem h), mapGet_mapSet_ne _ _ _ _ hn]
    · intro n
      rw [hes n]
      by_cases hmem : n ∈ rest
      · have hne : n ≠ nb := fun he => hnb (he ▸ hmem)
        rw [if_pos hmem, if_pos (List.mem_cons_of_mem _ hmem),
          mapGet_mapSet_ne _ _ _ _ hne]
      · rw [if_neg hmem]
        by_cases hn : n = nb
        · subst hn
          rw [if_pos (List.mem_cons_self _ _), mapGet_mapSet_self]
        · rw [if_neg (fun h => by
            rcases List.mem_cons.1 h with h | h
            · exact hn h
            · exact hmem h), mapGet_mapSet_ne _ _ _ _ hn]
    · rw [hq]
      have hfe : rest.filter
          (fun x => decide ((mapGet (mapSet indeg nb ((mapGet indeg nb).getD 0 - 1)) x).getD 0 - 1 = 0))
          = rest.filter (fun x => decide ((mapGet indeg x).getD 0 - 1 = 0)) := by
        apply List.filter_congr
        intro x hx
        have hne : x ≠ nb := fun he => hnb (he ▸ hx)
        rw [mapGet_mapSet_ne _ _ _ _ hne]
      rw [hfe, List.filter_cons]
      by_cases hd : (mapGet indeg nb).getD 0 - 1 = 0
      · rw [if_pos hd, if_pos (by simpa using hd)]
        simp
      · rw [if_neg hd, if_neg (by simpa using hd)]

theorem sum_toNat_mapSet_some (m : NMap Int) (hnd : (m.map Prod.fst).Nodup)
    (k : Nat) (v o : Int) (h : mapGet m k = some o) :
    ((mapSet m k v).map (fun p => p.2.toNat)).sum + o.toNat
      = (m.map (fun p => p.2.toNat)).sum + v.toNat := by
  have hhas : mapHas m k := by simp [mapHas, h]
  rw [mapSet, if_pos hhas]
  induction m with
  | nil => simp [mapGet] at h
  | cons p m ih =>
    have hnd2 : (p.1 :: m.map Prod.fst).Nodup := by simpa using hnd
    rcases List.nodup_cons.1 hnd2 with ⟨hp, hnd'⟩
    by_cases hpk : p.1 = k
    · rw [mapGet_cons, if_pos hpk] at h
      have ho : p.2 = o := by simpa using h
      have hrest : m.map (fun q => if q.1 = k then (k, v) else q) = m := by
        apply map_replace_id
        intro q hq he
        apply hp
        rw [hpk, ← he]
        exact List.mem_map.2 ⟨q, hq, rfl⟩
      rw [List.map_cons, if_pos hpk, hrest]
      simp [ho]
      omega
    · rw [mapGet_cons, if_neg hpk] at h
      have hhas' : mapHas m k := by simp [mapHas, h]
      have hih := ih hnd' h hhas'
      simp only [List.map_cons, List.sum_cons, if_neg hpk]
      omega

theorem sum_toNat_mapSet_none (m : NMap Int) (k : Nat) (v : Int)
    (h : mapGet m k = none) :
    ((mapSet m k v).map (fun p => p.2.toNat)).sum
      = (m.map (fun p => p.2.toNat)).sum + v.toNat := by
  have hhas : ¬ mapHas m k := by simp [mapHas, h]
  rw [mapSet, if_neg hhas]
  simp

theorem kahnStep_measure (children : List Nat) (finish : Nat) :
    ∀ (indeg : NMap Int) (es : NMap Nat) (queue : List Nat),
      (indeg.map Prod.fst).Nodup →
      (kahnStep children finish indeg es queue).2.2.length
          + ((kahnStep children finish indeg es queue).1.map (fun p => p.2.toNat)).sum
        ≤ queue.length + (indeg.map (fun p => p.2.toNat)).sum := by
  induction children with
  | nil =>
    intro indeg es queue _
    simp [kahnStep]
  | cons nb rest ih =>
    intro indeg es queue hnd
    rw [kahnStep_cons]
    have hnd1 : ((mapSet indeg nb ((mapGet indeg nb).getD 0 - 1)).map Prod.fst).Nodup :=
      keys_mapSet_nodup _ _ hnd
    refine le_trans (ih _ _ _ hnd1) ?_
    cases hget : mapGet indeg nb with
    | none =>
      have hsum := sum_toNat_mapSet_none indeg nb ((none : Option Int).getD 0 - 1) hget
      rw [if_neg (by decide), hsum]
      simp
    | some o =>
      have hsum := sum_toNat_mapSet_some indeg hnd nb ((mapGet indeg nb).getD 0 - 1) o hget
      rw [hget] at hsum
      simp only [Option.getD_some] at hsum ⊢
      by_cases hd : o - 1 = 0
      · rw [if_pos hd]
        simp only [List.length_append, List.length_cons, List.length_nil]
        omega
      · rw [if_neg hd]
        omega

end TodoDag

namespace TodoDag

/-! ### The Kahn loop invariant -/

theorem revOf_nodup {s : DagState} (hwf : WF s) (n : Nat) : (revOf s n).Nodup := by
  rcases hget : mapGet s.rev n with _ | l
  · rw [revOf, hget]
    simp
  · rw [revOf, hget]
    exact (hwf.2.2.2.2.1 (n, l) (mapGet_mem hget)).1

theorem adjOf_nodup {s : DagState} (hwf : WF s) (n : Nat) : (adjOf s n).Nodup := by
  rcases hget : mapGet s.adj n with _ | l
  · rw [adjOf, hget]
    simp
  · rw [adjOf, hget]
    exact (hwf.2.2.2.1 (n, l) (mapGet_mem hget)).1

theorem kahnStep_keys_nodup (children : List Nat) (finish : Nat) :
    ∀ (indeg : NMap Int) (es : NMap Nat) (queue : List Nat),
      (indeg.map Prod.fst).Nodup →
      ((kahnStep children finish indeg es queue).1.map Prod.fst).Nodup := by
  induction children with
  | nil => intro indeg es queue h; simpa [kahnStep] using h
  | cons nb rest ih =>
    intro indeg es queue h
    rw [kahnStep_cons]
    exact ih _ _ _ (keys_mapSet_nodup _ _ h)

theorem nodup_all_eq_singleton {l : List Nat} {c : Nat} (hnd : l.Nodup)
    (hall : ∀ x ∈ l, x = c) (hc : c ∈ l) : l = [c] := by
  match l with
  | [] => simp at hc
  | [a] =>
    have := hall a (by simp)
    simp [this]
  | a :: b :: t =>
    have ha := hall a (by simp)
    have hb := hall b (by simp)
    rcases List.nodup_cons.1 hnd with ⟨hna, _⟩
    exact absurd (by rw [ha, ← hb]; exact List.mem_cons_self _ _) hna

theorem calcDur_getD {s : DagState} (hnd : (s.todos.map Prod.fst).Nodup) (c : Nat) :
    (mapGet (calcDur s) c).getD 0 = durOf s c := by
  rw [mapGet_calcDur s hnd]
  rfl

/-- The relaxation equation: a task's tentative earliest start equals the
maximum finish time over its already-processed prerequisites (0 with none
processed). -/
def esEq (s : DagState) (es : NMap Nat) (P : List Nat) (n : Nat) : Prop :=
  (mapGet es n).getD 0
    = listMax (((revOf s n).filter (fun p => decide (p ∈ P))).map
        (fun p => (mapGet es p).getD 0 + durOf s p))

/-- The loop invariant of Kahn's algorithm, relating the processed prefix
`P`, the pending queue `Q`, and the two working maps: queue and prefix are
duplicate-free stored ids, the indegree counter of every task counts its
not-yet-processed prerequisites, a task has been seen (processed or
queued) exactly when all its prerequisites are processed, and every task
satisfies the relaxation equation over the processed prefix. -/
structure KInv (s : DagState) (P Q : List Nat) (indeg : NMap Int) (es : NMap Nat) : Prop where
  nodup : (P ++ Q).Nodup
  sub : ∀ x ∈ P ++ Q, x ∈ allTodoIds s
  indegKeys : (indeg.map Prod.fst).Nodup
  indegSpec : ∀ n ∈ allTodoIds s,
    mapGet indeg n = some ((((revOf s n).filter (fun p => decide (p ∉ P))).length : Int))
  closure : ∀ n ∈ allTodoIds s, ((n ∈ P ∨ n ∈ Q) ↔ ∀ p ∈ revOf s n, p ∈ P)
  esSpec : ∀ n ∈ allTodoIds s, esEq s es P n

/-- `TopoFrom s P T`: the nodes of `T`, dequeued in order after the prefix
`P` was processed, each have all their prerequisites among the earlier
processed nodes. -/
inductive TopoFrom (s : DagState) : List Nat → List Nat → Prop
  | nil (P : List Nat) : TopoFrom s P []
  | cons (P : List Nat) (c : Nat) (T : List Nat) :
      (∀ p ∈ revOf s c, p ∈ P) → TopoFrom s (P ++ [c]) T → TopoFrom s P (c :: T)

end TodoDag

namespace TodoDag

/-- The head of the queue has all its prerequisites processed. -/
theorem KInv_head_parents {s : DagState} {P c Q indeg es}
    (hinv : KInv s P (c :: Q) indeg es)
    (hcIds : c ∈ allTodoIds s) :
    ∀ p ∈ revOf s c, p ∈ P :=
  (hinv.closure c hcIds).1 (Or.inr (List.mem_cons_self _ _))

/-- One iteration of the scheduler loop preserves the invariant: dequeue
the head `c`, relax its dependents, decrement their counters, and enqueue
those that reach zero. -/
theorem KInv_step (s : DagState) (hwf : WF s) (P : List Nat) (c : Nat) (Q : List Nat)
    (indeg : NMap Int) (es : NMap Nat) (hinv : KInv s P (c :: Q) indeg es) :
    KInv s (P ++ [c])
      (kahnStep (adjOf s c) ((mapGet es c).getD 0 + (mapGet (calcDur s) c).getD 0)
        indeg es Q).2.2
      (kahnStep (adjOf s c) ((mapGet es c).getD 0 + (mapGet (calcDur s) c).getD 0)
        indeg es Q).1
      (kahnStep (adjOf s c) ((mapGet es c).getD 0 + (mapGet (calcDur s) c).getD 0)
        indeg es Q).2.1 := by
  have hcIds : c ∈ allTodoIds s :=
    hinv.sub c (List.mem_append_right _ (List.mem_cons_self _ _))
  rcases List.nodup_append.1 hinv.nodup with ⟨hndP, hndcQ, hdisj⟩
  have hcP : c ∉ P := fun h => hdisj h (List.mem_cons_self _ _)
  have hparC : ∀ p ∈ revOf s c, p ∈ P := KInv_head_parents hinv hcIds
  have hchildNodup : (adjOf s c).Nodup := adjOf_nodup hwf c
  have hchildIds : ∀ nb ∈ adjOf s c, nb ∈ allTodoIds s := fun nb h => hwf.adjOf_mem h
  have hF1 : ∀ nb ∈ adjOf s c, c ∈ revOf s nb := fun nb h => (hwf.mirror c nb).1 h
  have hF2 : ∀ nb ∈ adjOf s c, nb ∉ P := by
    intro nb hnb hmem
    exact hcP ((hinv.closure nb (hchildIds nb hnb)).1 (Or.inl hmem) c (hF1 nb hnb))
  have hF3 : ∀ nb ∈ adjOf s c, nb ≠ c := by
    intro nb hnb he
    exact hcP (hparC c (he ▸ hF1 nb hnb))
  have hcNotChild : c ∉ adjOf s c := fun h => hF3 c h rfl
  have hQchild : ∀ nb ∈ adjOf s c, nb ∉ Q := by
    intro nb hnb hq
    exact hcP ((hinv.closure nb (hchildIds nb hnb)).1
      (Or.inr (List.mem_cons_of_mem _ hq)) c (hF1 nb hnb))
  obtain ⟨hind, hes, hq⟩ := kahnStep_get (adjOf s c) hchildNodup
    ((mapGet es c).getD 0 + (mapGet (calcDur s) c).getD 0) indeg es Q
  have hQtail : ∀ x ∈ Q, x ∈ P ∨ x ∈ c :: Q ∨ True := fun _ _ => Or.inr (Or.inr trivial)
  refine ⟨?_, ?_, ?_, ?_, ?_, ?_⟩
  · -- nodup
    rw [hq, ← List.append_assoc]
    have hXeq : (P ++ [c]) ++ Q = P ++ c :: Q := by
      rw [List.append_assoc, List.singleton_append]
    apply List.nodup_append.2
    refine ⟨hXeq ▸ hinv.nodup, List.Nodup.filter _ hchildNodup, ?_⟩
    intro a ha hafil
    have hach : a ∈ adjOf s c := List.mem_of_mem_filter hafil
    rcases List.mem_append.1 ha with h | h
    · rcases List.mem_append.1 h with h' | h'
      · exact hF2 a hach h'
      · exact hF3 a hach (by simpa using h')
    · exact hQchild a hach h
  · -- sub
    intro x hx
    rw [hq] at hx
    rcases List.mem_append.1 hx with h | h
    · rcases List.mem_append.1 h with h' | h'
      · exact hinv.sub x (List.mem_append_left _ h')
      · have : x = c := by simpa using h'
        exact this ▸ hcIds
    · rcases List.mem_append.1 h with h' | h'
      · exact hinv.sub x (List.mem_append_right _ (List.mem_cons_of_mem _ h'))
      · exact hchildIds x (List.mem_of_mem_filter h')
  · -- indeg keys
    exact kahnStep_keys_nodup _ _ _ _ _ hinv.indegKeys
  · -- indeg spec
    intro n hn
    rw [hind n]
    by_cases hmem : n ∈ adjOf s c
    · rw [if_pos hmem, hinv.indegSpec n hn]
      have hdrop := length_filter_drop (revOf_nodup hwf n) (hF1 n hmem) hcP
      simp only [Option.getD_some, Option.some.injEq]
      rw [hdrop]
      push_cast
      ring
    · rw [if_neg hmem, hinv.indegSpec n hn]
      have hcn : c ∉ revOf s n := fun h => hmem ((hwf.mirror c n).2 h)
      have hfe : (revOf s n).filter (fun p => decide (p ∉ P))
          = (revOf s n).filter (fun p => decide (p ∉ P ++ [c])) := by
        apply List.filter_congr
        intro p hp
        have hpc : p ≠ c := fun he => hcn (he ▸ hp)
        simp [hpc]
      rw [hfe]
  · -- closure
    intro n hn
    constructor
    · intro hmemPQ
      rcases hmemPQ with h | h
      · rcases List.mem_append.1 h with h' | h'
        · intro p hp
          exact List.mem_append_left _ ((hinv.closure n hn).1 (Or.inl h') p hp)
        · have : n = c := by simpa using h'
          subst this
          intro p hp
          exact List.mem_append_left _ (hparC p hp)
      · rw [hq] at h
        rcases List.mem_append.1 h with h' | h'
        · intro p hp
          exact List.mem_append_left _
            ((hinv.closure n hn).1 (Or.inr (List.mem_cons_of_mem _ h')) p hp)
        · have hch : n ∈ adjOf s c := List.mem_of_mem_filter h'
          have hpred := (List.mem_filter.1 h').2
          rw [hinv.indegSpec n hn] at hpred
          simp only [Option.getD_some, decide_eq_true_eq] at hpred
          have hlen : ((revOf s n).filter (fun p => decide (p ∉ P))).length = 1 := by
            omega
          rcases List.length_eq_one.1 hlen with ⟨a, hae⟩
          have hcin : c ∈ (revOf s n).filter (fun p => decide (p ∉ P)) :=
            List.mem_filter.2 ⟨hF1 n hch, by simpa using hcP⟩
          have hac : a = c := by
            rw [hae] at hcin
            have : c = a := by simpa using hcin
            exact this.symm
          intro p hp
          by_cases hpP : p ∈ P
          · exact List.mem_append_left _ hpP
          · have : p ∈ (revOf s n).filter (fun p => decide (p ∉ P)) :=
              List.mem_filter.2 ⟨hp, by simpa using hpP⟩
            rw [hae, hac] at this
            have : p = c := by simpa using this
            subst this
            exact List.mem_append_right _ (List.mem_cons_self _ _)
    · intro hparn
      by_cases hcn : c ∈ revOf s n
      · have hch : n ∈ adjOf s c := (hwf.mirror c n).2 hcn
        have hall : ∀ x ∈ (revOf s n).filter (fun p => decide (p ∉ P)), x = c := by
          intro x hx
          have hxr : x ∈ revOf s n := List.mem_of_mem_filter hx
          have hxP : x ∉ P := by simpa using (List.mem_filter.1 hx).2
          rcases List.mem_append.1 (hparn x hxr) with h' | h'
          · exact absurd h' hxP
          · simpa using h'
        have hcin : c ∈ (revOf s n).filter (fun p => decide (p ∉ P)) :=
          List.mem_filter.2 ⟨hcn, by simpa using hcP⟩
        have hsing := nodup_all_eq_singleton (List.Nodup.filter _ (revOf_nodup hwf n))
          hall hcin
        right
        rw [hq]
        apply List.mem_append_right
        apply List.mem_filter.2
        refine ⟨hch, ?_⟩
        rw [hinv.indegSpec n hn]
        simp only [Option.getD_some, decide_eq_true_eq]
        rw [hsing]
        simp
      · have hsubP : ∀ p ∈ revOf s n, p ∈ P := by
          intro p hp
          rcases List.mem_append.1 (hparn p hp) with h' | h'
          · exact h'
          · have : p = c := by simpa using h'
            exact absurd (this ▸ hp) hcn
        rcases (hinv.closure n hn).2 hsubP with h | h
        · exact Or.inl (List.mem_append_left _ h)
        · rcases List.mem_cons.1 h with h' | h'
          · exact Or.inl (List.mem_append_right _ (by simp [h']))
          · right
            rw [hq]
            exact List.mem_append_left _ h'
  · -- es spec
    intro n hn
    have hesKeep : ∀ p ∈ P ++ [c],
        (mapGet (kahnStep (adjOf s c)
            ((mapGet es c).getD 0 + (mapGet (calcDur s) c).getD 0) indeg es Q).2.1 p).getD 0
          = (mapGet es p).getD 0 := by
      intro p hp
      rw [hes p]
      have hnotch : p ∉ adjOf s c := by
        rcases List.mem_append.1 hp with h' | h'
        · exact fun hmem => hF2 p hmem h'
        · have : p = c := by simpa using h'
          exact this ▸ hcNotChild
      rw [if_neg hnotch]
    by_cases hmem : n ∈ adjOf s c
    · show (mapGet _ n).getD 0 = _
      rw [hes n, if_pos hmem]
      simp only [Option.getD_some]
      have hmapeq : ((revOf s n).filter (fun p => decide (p ∈ P ++ [c]))).map
          (fun p => (mapGet (kahnStep (adjOf s c)
              ((mapGet es c).getD 0 + (mapGet (calcDur s) c).getD 0) indeg es Q).2.1 p).getD 0
            + durOf s p)
          = ((revOf s n).filter (fun p => decide (p ∈ P ++ [c]))).map
            (fun p => (mapGet es p).getD 0 + durOf s p) := by
        apply List.map_congr_left
        intro p hp
        rw [hesKeep p (by simpa using (List.mem_filter.1 hp).2)]
      rw [hmapeq,
        listMax_filter_insert (revOf s n) (revOf_nodup hwf n) _ P c (hF1 n hmem) hcP]
      have hold : (mapGet es n).getD 0
          = listMax (((revOf s n).filter (fun p => decide (p ∈ P))).map
              (fun p => (mapGet es p).getD 0 + durOf s p)) := hinv.esSpec n hn
      rw [hold, calcDur_getD hwf.1 c]
    · show (mapGet _ n).getD 0 = _
      rw [hes n, if_neg hmem]
      have hcn : c ∉ revOf s n := fun h => hmem ((hwf.mirror c n).2 h)
      have hfe : (revOf s n).filter (fun p => decide (p ∈ P ++ [c]))
          = (revOf s n).filter (fun p => decide (p ∈ P)) := by
        apply List.filter_congr
        intro p hp
        have hpc : p ≠ c := fun he => hcn (he ▸ hp)
        simp [hpc]
      have hmapeq : ((revOf s n).filter (fun p => decide (p ∈ P))).map
          (fun p => (mapGet (kahnStep (adjOf s c)
              ((mapGet es c).getD 0 + (mapGet (calcDur s) c).getD 0) indeg es Q).2.1 p).getD 0
            + durOf s p)
          = ((revOf s n).filter (fun p => decide (p ∈ P))).map
            (fun p => (mapGet es p).getD 0 + durOf s p) := by
        apply List.map_congr_left
        intro p hp
        rw [hesKeep p (List.mem_append_left _ (by simpa using (List.mem_filter.1 hp).2))]
      rw [hfe, hmapeq]
      exact hinv.esSpec n hn

end TodoDag

namespace TodoDag

theorem kahnLoop_cons_eq (s : DagState) (durM : NMap Nat) (fuel : Nat) (c : Nat)
    (Q : List Nat) (indeg : NMap Int) (es : NMap Nat) :
    kahnLoop s durM (fuel + 1) (c :: Q) indeg es
      = ((kahnLoop s durM fuel
            (kahnStep (adjOf s c) ((mapGet es c).getD 0 + (mapGet durM c).getD 0)
              indeg es Q).2.2
            (kahnStep (adjOf s c) ((mapGet es c).getD 0 + (mapGet durM c).getD 0)
              indeg es Q).1
            (kahnStep (adjOf s c) ((mapGet es c).getD 0 + (mapGet durM c).getD 0)
              indeg es Q).2.1).1,
         c :: (kahnLoop s durM fuel
            (kahnStep (adjOf s c) ((mapGet es c).getD 0 + (mapGet durM c).getD 0)
              indeg es Q).2.2
            (kahnStep (adjOf s c) ((mapGet es c).getD 0 + (mapGet durM c).getD 0)
              indeg es Q).1
            (kahnStep (adjOf s c) ((mapGet es c).getD 0 + (mapGet durM c).getD 0)
              indeg es Q).2.1).2.1,
         (kahnLoop s durM fuel
            (kahnStep (adjOf s c) ((mapGet es c).getD 0 + (mapGet durM c).getD 0)
              indeg es Q).2.2
            (kahnStep (adjOf s c) ((mapGet es c).getD 0 + (mapGet durM c).getD 0)
              indeg es Q).1
            (kahnStep (adjOf s c) ((mapGet es c).getD 0 + (mapGet durM c).getD 0)
              indeg es Q).2.1).2.2) := rfl

/-- The scheduler loop, run with fuel exceeding its measure, empties the
queue; the dequeue trace extends the processed prefix topologically, and
the final state satisfies the invariant with an empty queue. -/
theorem kahnLoop_spec (s : DagState) (hwf : WF s) :
    ∀ fuel P Q indeg es,
      KInv s P Q indeg es →
      kahnMeasure Q indeg < fuel →
      (kahnLoop s (calcDur s) fuel Q indeg es).2.2 = true ∧
      TopoFrom s P (kahnLoop s (calcDur s) fuel Q indeg es).2.1 ∧
      ∃ indegF,
        KInv s (P ++ (kahnLoop s (calcDur s) fuel Q indeg es).2.1) [] indegF
          (kahnLoop s (calcDur s) fuel Q indeg es).1 := by
  intro fuel
  induction fuel with
  | zero =>
    intro P Q indeg es _ hm
    exact absurd hm (by omega)
  | succ fuel ih =>
    intro P Q indeg es hinv hm
    match Q with
    | [] =>
      have hnil : kahnLoop s (calcDur s) (fuel + 1) [] indeg es = (es, [], true) := rfl
      rw [hnil]
      refine ⟨rfl, TopoFrom.nil P, indeg, ?_⟩
      rw [List.append_nil]
      exact hinv
    | c :: Q' =>
      have hcIds : c ∈ allTodoIds s :=
        hinv.sub c (List.mem_append_right _ (List.mem_cons_self _ _))
      have hparC := KInv_head_parents hinv hcIds
      have hstepinv := KInv_step s hwf P c Q' indeg es hinv
      have hms := kahnStep_measure (adjOf s c)
        ((mapGet es c).getD 0 + (mapGet (calcDur s) c).getD 0) indeg es Q'
        hinv.indegKeys
      have hm' : kahnMeasure
          (kahnStep (adjOf s c) ((mapGet es c).getD 0 + (mapGet (calcDur s) c).getD 0)
            indeg es Q').2.2
          (kahnStep (adjOf s c) ((mapGet es c).getD 0 + (mapGet (calcDur s) c).getD 0)
            indeg es Q').1 < fuel := by
        rw [kahnMeasure] at hm ⊢
        simp only [List.length_cons] at hm
        omega
      rcases ih (P ++ [c]) _ _ _ hstepinv hm' with ⟨hok, htopo, indegF, hfin⟩
      rw [kahnLoop_cons_eq]
      refine ⟨hok, TopoFrom.cons P c _ hparC htopo, indegF, ?_⟩
      rw [← List.singleton_append, ← List.append_assoc]
      exact hfin

/-- The initial state of the loop satisfies the invariant. -/
theorem KInv_init (s : DagState) (hwf : WF s) :
    KInv s [] (rootNodes s) (calcIndeg0 s) (calcEs0 s) := by
  have hrevnd : (s.rev.map Prod.fst).Nodup := by
    rw [hwf.2.2.1]
    exact hwf.1
  refine ⟨?_, ?_, ?_, ?_, ?_, ?_⟩
  · simp only [List.nil_append]
    exact List.Nodup.sublist (List.Sublist.map Prod.fst (List.filter_sublist _)) hrevnd
  · intro x hx
    simp only [List.nil_append] at hx
    rcases List.mem_map.1 hx with ⟨p, hp, rfl⟩
    have hmem : p ∈ s.rev := (List.mem_filter.1 hp).1
    have hkey : p.1 ∈ s.rev.map Prod.fst := List.mem_map.2 ⟨p, hmem, rfl⟩
    rw [hwf.2.2.1] at hkey
    exact hkey
  · exact build_keys_nodup Prod.fst (fun p => ((revOf s p.1).length : Int))
      s.todos [] (by simp)
  · intro n hn
    rw [mapGet_calcIndeg0 s hwf.1 n]
    rcases Option.isSome_iff_exists.1 (mapGet_isSome_of_mem hn) with ⟨t, ht⟩
    rw [ht]
    have hfe : (revOf s n).filter (fun p => decide (p ∉ ([] : List Nat))) = revOf s n :=
      List.filter_eq_self.2 (by intro a _; simp)
    rw [hfe]
    rfl
  · intro n hn
    have hhasrev : mapHas s.rev n = true := by
      rw [mapHas_rev_of_wf hwf]
      exact (mapHas_iff_mem_keys _ _).2 hn
    constructor
    · rintro (h | h)
      · simp at h
      · intro p hp
        rw [(mem_rootNodes_iff hrevnd hhasrev).1 h] at hp
        exact hp
    · intro h
      right
      rw [mem_rootNodes_iff hrevnd hhasrev]
      exact List.eq_nil_iff_forall_not_mem.2 (fun p hp => by simpa using h p hp)
  · intro n hn
    show (mapGet (calcEs0 s) n).getD 0 = _
    rw [mapGet_calcEs0 s hwf.1 n]
    rcases Option.isSome_iff_exists.1 (mapGet_isSome_of_mem hn) with ⟨t, ht⟩
    rw [ht]
    have hfe : (revOf s n).filter (fun p => decide (p ∈ ([] : List Nat))) = [] := by
      apply List.filter_eq_nil_iff.2
      intro a _
      simp
    rw [hfe]
    rfl

/-- The full scheduler run: the queue empties, the dequeue trace is a
topological sequence from the empty prefix, and the final earliest-start
map satisfies the invariant with the trace as processed set. -/
theorem kahnRun_spec (s : DagState) (hwf : WF s) :
    (kahnRun s).2.2 = true ∧
    TopoFrom s [] (kahnRun s).2.1 ∧
    ∃ indegF, KInv s (kahnRun s).2.1 [] indegF (kahnRun s).1 := by
  have h := kahnLoop_spec s hwf (kahnMeasure (rootNodes s) (calcIndeg0 s) + 1)
    [] (rootNodes s) (calcIndeg0 s) (calcEs0 s) (KInv_init s hwf) (by omega)
  rcases h with ⟨hok, htopo, indegF, hfin⟩
  rw [List.nil_append] at hfin
  exact ⟨hok, htopo, indegF, hfin⟩

end TodoDag

namespace TodoDag

/-! ### A parent-closed set of unprocessed nodes yields a cycle -/

theorem exists_cycle_of_parent_closed (s : DagState) (hwf : WF s)
    (S : List Nat) (hne : S ≠ [])
    (hstep : ∀ n ∈ S, ∃ p, p ∈ S ∧ p ∈ revOf s n) :
    ∃ m, Relation.TransGen (Edge s) m m := by
  classical
  obtain ⟨n0, hn0⟩ : ∃ n, n ∈ S := by
    cases S with
    | nil => exact absurd rfl hne
    | cons a t => exact ⟨a, by simp⟩
  let f : {n // n ∈ S} → {n // n ∈ S} := fun x =>
    ⟨Classical.choose (hstep x.1 x.2), (Classical.choose_spec (hstep x.1 x.2)).1⟩
  have hf : ∀ x : {n // n ∈ S}, (f x).1 ∈ revOf s x.1 := fun x =>
    (Classical.choose_spec (hstep x.1 x.2)).2
  let g : Nat → {n // n ∈ S} := fun k => f^[k] ⟨n0, hn0⟩
  have hgs : ∀ k, g (k + 1) = f (g k) := by
    intro k
    show f^[k + 1] _ = f (f^[k] _)
    rw [Function.iterate_succ_apply']
  have hedge : ∀ k, Edge s (g (k + 1)).1 (g k).1 := by
    intro k
    rw [hgs k]
    exact (hwf.mirror _ _).2 (hf (g k))
  have hchain : ∀ i j, i < j → Relation.TransGen (Edge s) (g j).1 (g i).1 := by
    intro i j
    induction j with
    | zero => omega
    | succ j ihj =>
      intro hij
      by_cases hji : i = j
      · subst hji
        exact Relation.TransGen.single (hedge i)
      · exact Relation.TransGen.head (hedge j) (ihj (by omega))
  have hmaps : ∀ k ∈ Finset.range (S.length + 1), (g k).1 ∈ S.toFinset := by
    intro k _
    exact List.mem_toFinset.2 (g k).2
  have hcard : S.toFinset.card < (Finset.range (S.length + 1)).card := by
    rw [Finset.card_range]
    have := S.toFinset_card_le
    omega
  obtain ⟨i, _, j, _, hne', heq⟩ :=
    Finset.exists_ne_map_eq_of_card_lt_of_maps_to hcard hmaps
  rcases Nat.lt_or_ge i j with hij | hij
  · have h := hchain i j hij
    rw [← heq] at h
    exact ⟨(g i).1, h⟩
  · have hji : j < i := by omega
    have h := hchain j i hji
    rw [heq] at h
    exact ⟨(g j).1, h⟩

/-- On an acyclic well-formed graph, any set closed under the rule
"a task with all prerequisites inside is inside" contains every task. -/
theorem processed_all (s : DagState) (hwf : WF s) (hac : Acyclic s) (T : List Nat)
    (hclos : ∀ n ∈ allTodoIds s, (n ∈ T ↔ ∀ p ∈ revOf s n, p ∈ T)) :
    ∀ n ∈ allTodoIds s, n ∈ T := by
  by_contra hcon
  push_neg at hcon
  obtain ⟨n0, hn0, hn0T⟩ := hcon
  have hne : (allTodoIds s).filter (fun n => decide (n ∉ T)) ≠ [] := by
    intro h
    have : n0 ∈ (allTodoIds s).filter (fun n => decide (n ∉ T)) :=
      List.mem_filter.2 ⟨hn0, by simpa using hn0T⟩
    rw [h] at this
    simp at this
  have hstep : ∀ n ∈ (allTodoIds s).filter (fun n => decide (n ∉ T)),
      ∃ p, p ∈ (allTodoIds s).filter (fun n => decide (n ∉ T)) ∧ p ∈ revOf s n := by
    intro n hn
    have hnids : n ∈ allTodoIds s := List.mem_of_mem_filter hn
    have hnT : n ∉ T := by simpa using (List.mem_filter.1 hn).2
    have hnp : ¬ ∀ p ∈ revOf s n, p ∈ T := fun h => hnT ((hclos n hnids).2 h)
    push_neg at hnp
    obtain ⟨p, hp, hpT⟩ := hnp
    exact ⟨p, List.mem_filter.2 ⟨hwf.revOf_mem hp, by simpa using hpT⟩, hp⟩
  obtain ⟨m, hm⟩ := exists_cycle_of_parent_closed s hwf _ hne hstep
  obtain ⟨x, hmx, hxm⟩ := (Relation.TransGen.head'_iff).1 hm
  rcases hget : mapGet s.adj m with _ | l
  · rw [Edge, adjOf, hget] at hmx
    simp at hmx
  · rw [Edge, adjOf, hget] at hmx
    simp only [Option.getD_some] at hmx
    exact hac (m, l) (mapGet_mem hget) x hmx hxm

/-- Processed prefixes are closed under ancestors and cycle-free, and stay
so through a topological continuation. -/
theorem topoFrom_free (s : DagState) (hwf : WF s) :
    ∀ P T, TopoFrom s P T → (P ++ T).Nodup →
      (∀ x ∈ P, ∀ y, Reaches s y x → y ∈ P) →
      (∀ x ∈ P, ¬ Relation.TransGen (Edge s) x x) →
      (∀ x ∈ P ++ T, ∀ y, Reaches s y x → y ∈ P ++ T) ∧
      (∀ x ∈ P ++ T, ¬ Relation.TransGen (Edge s) x x) := by
  intro P T htopo
  induction htopo with
  | nil P =>
    intro _ hanc hfree
    constructor
    · intro x hx y hy
      exact List.mem_append_left _ (hanc x (by simpa using hx) y hy)
    · intro x hx
      exact hfree x (by simpa using hx)
  | cons P c T hpar _ ih =>
    intro hnd hanc hfree
    have hcP : c ∉ P := by
      rcases List.nodup_append.1 hnd with ⟨_, _, hdisj⟩
      exact fun h => hdisj h (List.mem_cons_self _ _)
    have hanc' : ∀ x ∈ P ++ [c], ∀ y, Reaches s y x → y ∈ P ++ [c] := by
      intro x hx y hy
      rcases List.mem_append.1 hx with h | h
      · exact List.mem_append_left _ (hanc x h y hy)
      · have hxc : x = c := by simpa using h
        subst hxc
        rcases Relation.ReflTransGen.cases_tail hy with h' | ⟨z, hyz, hzc⟩
        · exact List.mem_append_right _ (by simp [h'])
        · have hzpar : z ∈ revOf s x := (hwf.mirror z x).1 hzc
          exact List.mem_append_left _ (hanc z (hpar z hzpar) y hyz)
    have hfree' : ∀ x ∈ P ++ [c], ¬ Relation.TransGen (Edge s) x x := by
      intro x hx
      rcases List.mem_append.1 hx with h | h
      · exact hfree x h
      · have hxc : x = c := by simpa using h
        subst hxc
        intro hcyc
        obtain ⟨y, hxy, hyx⟩ := (Relation.TransGen.tail'_iff).1 hcyc
        have hypar : y ∈ revOf s x := (hwf.mirror y x).1 hyx
        exact hcP (hanc y (hpar y hypar) x hxy)
    have hnd' : ((P ++ [c]) ++ T).Nodup := by
      rw [List.append_assoc, List.singleton_append]
      exact hnd
    have := ih hnd' hanc' hfree'
    rw [List.append_assoc, List.singleton_append] at this
    exact this

/-- Splits a topological continuation at an occurrence. -/
theorem topoFrom_split (s : DagState) :
    ∀ P T, TopoFrom s P T → ∀ T1 n T2, T = T1 ++ n :: T2 →
      ∀ p ∈ revOf s n, p ∈ P ++ T1 := by
  intro P T htopo
  induction htopo with
  | nil P =>
    intro T1 n T2 he
    exact absurd he.symm (by simp)
  | cons P c T hpar _ ih =>
    intro T1 n T2 he p hp
    cases T1 with
    | nil =>
      simp only [List.nil_append] at he
      injection he with h1 _
      subst h1
      simp only [List.append_nil]
      exact hpar p hp
    | cons t1 T1p =>
      simp only [List.cons_append] at he
      injection he with h1 h2
      subst h1
      have := ih T1p n T2 h2 p hp
      rw [List.append_assoc, List.singleton_append] at this
      exact this

end TodoDag

namespace TodoDag

theorem minHours_calc (s : DagState) (n : Nat) (hn : n ∈ allTodoIds s) :
    minHoursOf (calculateEarliestStartTimes s) n = (mapGet (kahnRun s).1 n).getD 0 := by
  rw [minHoursOf, mapGet_calc_todos]
  rcases Option.isSome_iff_exists.1 (mapGet_isSome_of_mem hn) with ⟨t, ht⟩
  rw [ht]
  rfl

/-- Claim C5: on every well-formed acyclic graph state, after
`calculateEarliestStartTimes` the stored `minimumHours` values satisfy the
scheduling constraints: along every edge the dependent starts no earlier
than the prerequisite's finish, every task without prerequisites starts at
0, and every task with prerequisites attains equality on at least one
incoming edge (its binding constraint). -/
theorem C5_scheduler_correctness (s : DagState) (hwf : WF s) (hac : Acyclic s) :
    (∀ a b, b ∈ adjOf s a →
        minHoursOf (calculateEarliestStartTimes s) a + durOf s a
          ≤ minHoursOf (calculateEarliestStartTimes s) b) ∧
    (∀ n ∈ allTodoIds s, revOf s n = [] →
        minHoursOf (calculateEarliestStartTimes s) n = 0) ∧
    (∀ n ∈ allTodoIds s, revOf s n ≠ [] →
        ∃ p ∈ revOf s n,
          minHoursOf (calculateEarliestStartTimes s) n
            = minHoursOf (calculateEarliestStartTimes s) p + durOf s p) := by
  obtain ⟨hok, htopo, indegF, hfin⟩ := kahnRun_spec s hwf
  have hcls : ∀ n ∈ allTodoIds s,
      (n ∈ (kahnRun s).2.1 ↔ ∀ p ∈ revOf s n, p ∈ (kahnRun s).2.1) := by
    intro n hn
    have h := hfin.closure n hn
    simpa using h
  have hall := processed_all s hwf hac _ hcls
  have hesF : ∀ n ∈ allTodoIds s,
      (mapGet (kahnRun s).1 n).getD 0
        = listMax ((revOf s n).map
            (fun p => (mapGet (kahnRun s).1 p).getD 0 + durOf s p)) := by
    intro n hn
    have h : (mapGet (kahnRun s).1 n).getD 0
        = listMax (((revOf s n).filter (fun p => decide (p ∈ (kahnRun s).2.1))).map
            (fun p => (mapGet (kahnRun s).1 p).getD 0 + durOf s p)) := hfin.esSpec n hn
    have hfe : (revOf s n).filter (fun p => decide (p ∈ (kahnRun s).2.1)) = revOf s n :=
      List.filter_eq_self.2 (fun p hp => by
        simpa using hall p (hwf.revOf_mem hp))
    rw [hfe] at h
    exact h
  refine ⟨?_, ?_, ?_⟩
  · intro a b hb
    have hbids : b ∈ allTodoIds s := hwf.adjOf_mem hb
    have hapar : a ∈ revOf s b := (hwf.mirror a b).1 hb
    have haids : a ∈ allTodoIds s := hwf.revOf_mem hapar
    rw [minHours_calc s a haids, minHours_calc s b hbids, hesF b hbids]
    exact le_listMax_of_mem (List.mem_map.2 ⟨a, hapar, rfl⟩)
  · intro n hn hroot
    rw [minHours_calc s n hn, hesF n hn, hroot]
    rfl
  · intro n hn hne
    rw [minHours_calc s n hn, hesF n hn]
    have hLne : ((revOf s n).map
        (fun p => (mapGet (kahnRun s).1 p).getD 0 + durOf s p)) ≠ [] := by
      simpa using hne
    rcases listMax_mem hLne with hmem | hzero
    · rcases List.mem_map.1 hmem with ⟨p, hp, hpe⟩
      refine ⟨p, hp, ?_⟩
      rw [minHours_calc s p (hwf.revOf_mem hp)]
      exact hpe.symm
    · rcases List.exists_mem_of_ne_nil _ hne with ⟨p, hpmem⟩
      refine ⟨p, hpmem, ?_⟩
      rw [minHours_calc s p (hwf.revOf_mem hpmem)]
      have hple : (mapGet (kahnRun s).1 p).getD 0 + durOf s p
          ≤ listMax ((revOf s n).map
              (fun q => (mapGet (kahnRun s).1 q).getD 0 + durOf s q)) :=
        le_listMax_of_mem (List.mem_map.2 ⟨p, hpmem, rfl⟩)
      omega

/-- The spec's scenario 2: tasks A(2), B(3), C(4) with edges A→C and B→C
(ids 1, 2, 3). -/
def sC5ex : DagState :=
  ⟨[(1, ⟨1, "A", "", "", 2, 0⟩), (2, ⟨2, "B", "", "", 3, 0⟩),
    (3, ⟨3, "C", "", "", 4, 0⟩)],
   [(1, [3]), (2, [3]), (3, [])],
   [(1, []), (2, []), (3, [1, 2])],
   []⟩

/-- Witness for C5 on the concrete two-prerequisite join: C starts at
`max(0+2, 0+3) = 3` (the maximum, not the sum), and the general theorem
applies. -/
theorem C5_witness :
    minHoursOf (calculateEarliestStartTimes sC5ex) 3 = 3 ∧
    (∀ a b, b ∈ adjOf sC5ex a →
        minHoursOf (calculateEarliestStartTimes sC5ex) a + durOf sC5ex a
          ≤ minHoursOf (calculateEarliestStartTimes sC5ex) b) ∧
    (∀ n ∈ allTodoIds sC5ex, revOf sC5ex n = [] →
        minHoursOf (calculateEarliestStartTimes sC5ex) n = 0) ∧
    (∀ n ∈ allTodoIds sC5ex, revOf sC5ex n ≠ [] →
        ∃ p ∈ revOf sC5ex n,
          minHoursOf (calculateEarliestStartTimes sC5ex) n
            = minHoursOf (calculateEarliestStartTimes sC5ex) p + durOf sC5ex p) :=
  ⟨by decide, C5_scheduler_correctness sC5ex (by decide) (by decide)⟩

/-- Claim C10: on every well-formed state — cyclic edge sets included —
the scheduler's queue provably empties within the supplied fuel (the loop
terminates), every task is dequeued at most once, only stored tasks are
dequeued, a task lying on or downstream of a cycle is never enqueued, and
every task's stored `minimumHours` is the value propagated from its
processed (dequeued) prerequisites — 0 when it has none. -/
theorem C10_kahn_termination (s : DagState) (hwf : WF s) :
    (kahnRun s).2.2 = true ∧
    (kahnRun s).2.1.Nodup ∧
    (∀ x ∈ (kahnRun s).2.1, x ∈ allTodoIds s) ∧
    (∀ c n, Relation.TransGen (Edge s) c c → Reaches s c n →
      n ∉ (kahnRun s).2.1) ∧
    (∀ n ∈ allTodoIds s,
        minHoursOf (calculateEarliestStartTimes s) n
          = listMax (((revOf s n).filter
                (fun p => decide (p ∈ (kahnRun s).2.1))).map
              (fun p => (mapGet (kahnRun s).1 p).getD 0 + durOf s p))) := by
  obtain ⟨hok, htopo, indegF, hfin⟩ := kahnRun_spec s hwf
  have hnd : (kahnRun s).2.1.Nodup := by simpa using hfin.nodup
  have hsub : ∀ x ∈ (kahnRun s).2.1, x ∈ allTodoIds s := by
    intro x hx
    exact hfin.sub x (by simpa using hx)
  have hfree := topoFrom_free s hwf [] _ htopo (by simpa using hnd)
    (by simp) (by simp)
  simp only [List.nil_append] at hfree
  refine ⟨hok, hnd, hsub, ?_, ?_⟩
  · intro c n hcyc hreach hmem
    exact hfree.2 c (hfree.1 n hmem c hreach) hcyc
  · intro n hn
    have h : (mapGet (kahnRun s).1 n).getD 0
        = listMax (((revOf s n).filter
              (fun p => decide (p ∈ (kahnRun s).2.1))).map
            (fun p => (mapGet (kahnRun s).1 p).getD 0 + durOf s p)) := hfin.esSpec n hn
    rw [minHours_calc s n hn]
    exact h

/-- A well-formed state whose edge set contains the cycle 1→2→1, the
downstream task 3 (2→3), and the independent root 4. -/
def sCyc : DagState :=
  ⟨[(1, ⟨1, "a", "", "", 2, 0⟩), (2, ⟨2, "b", "", "", 3, 0⟩),
    (3, ⟨3, "c", "", "", 4, 0⟩), (4, ⟨4, "d", "", "", 5, 0⟩)],
   [(1, [2]), (2, [1, 3]), (3, []), (4, [])],
   [(1, [2]), (2, [1]), (3, [2]), (4, [])],
   []⟩

/-- Witness for C10 on the concrete cyclic graph: the loop still empties
its queue, dequeues nothing twice, never enqueues task 3 (downstream of
the cycle 1→2→1), and stores 3's propagated value. -/
theorem C10_witness :
    (kahnRun sCyc).2.2 = true ∧
    (kahnRun sCyc).2.1.Nodup ∧
    3 ∉ (kahnRun sCyc).2.1 ∧
    minHoursOf (calculateEarliestStartTimes sCyc) 3
      = listMax (((revOf sCyc 3).filter
            (fun p => decide (p ∈ (kahnRun sCyc).2.1))).map
          (fun p => (mapGet (kahnRun sCyc).1 p).getD 0 + durOf sCyc p)) := by
  have h := C10_kahn_termination sCyc (by decide)
  have e12 : Edge sCyc 1 2 := by decide
  have e21 : Edge sCyc 2 1 := by decide
  have e23 : Edge sCyc 2 3 := by decide
  have hcyc : Relation.TransGen (Edge sCyc) 1 1 :=
    Relation.TransGen.tail (Relation.TransGen.single e12) e21
  have hreach : Reaches sCyc 1 3 :=
    Relation.ReflTransGen.head e12
      (Relation.ReflTransGen.head e23 Relation.ReflTransGen.refl)
  exact ⟨h.1, h.2.1, h.2.2.2.1 1 3 hcyc hreach, h.2.2.2.2 3 (by decide)⟩

end TodoDag
